import Mathlib

/-!
Verification of the route-graph shortest-path engine of DevNullX
(`src/services/dijkstra.ts`).

The TypeScript source is shallowly embedded: JavaScript `Map`s become
association lists (`List (String × _)`) for the graph itself and total
functions into `Option` for the per-run Dijkstra tables (a `none` result
models a lookup of an absent key, i.e. JS `undefined`), numbers become `ℚ`
(with `WithTop ℚ` modelling the `Infinity` sentinel), and the two `while`
loops are written with an explicit step budget: the main loop removes one
element of `unvisited` per iteration so the budget `unvisited.length` is
exact, and the predecessor walk is budgeted by `|nodes| + 1`, which is
proved sufficient for every state the algorithm produces.

JavaScript comparison quirks are preserved: comparing against an absent
(`undefined`) table entry is always false, so relaxing an edge whose
target is not a node silently does nothing, exactly as in the source.
-/

namespace DevNullX

/-- Node kinds, from the `GraphNode` interface. -/
inductive NodeType
  | city | junction | toll | fuel | rest_area
deriving DecidableEq, Repr

/-- Road classes, from the `GraphEdge` interface. -/
inductive RoadType
  | national_highway | state_highway | expressway | city_road
deriving DecidableEq, Repr

/-- The `GraphNode` interface. -/
structure GraphNode where
  id : String
  lat : ℚ
  lng : ℚ
  name : String
  type : NodeType
deriving DecidableEq, Repr

/-- The `GraphEdge` interface. -/
structure GraphEdge where
  «from» : String
  «to» : String
  distance : ℚ
  time : ℚ
  cost : ℚ
  roadType : RoadType
  tollCost : ℚ
  trafficFactor : ℚ
deriving DecidableEq, Repr

/-- The `RouteSegment` interface. -/
structure RouteSegment where
  «from» : GraphNode
  «to» : GraphNode
  distance : ℚ
  time : ℚ
  roadType : String
  instructions : String
deriving DecidableEq, Repr

/-- The `RouteResult` interface; coordinates are (lat, lng) pairs. -/
structure RouteResult where
  path : List String
  totalDistance : ℚ
  totalTime : ℚ
  totalCost : ℚ
  coordinates : List (ℚ × ℚ)
  segments : List RouteSegment
deriving DecidableEq, Repr

/-- Lookup in a JS `Map` modelled as an association list (first match). -/
def mapGet {α : Type} : List (String × α) → String → Option α
  | [], _ => none
  | (k', v) :: rest, k => if k' = k then some v else mapGet rest k

/-- `Map.set`: overwrite in place preserving position, append a new key. -/
def mapSet {α : Type} : List (String × α) → String → α → List (String × α)
  | [], k, v => [(k, v)]
  | (k', v') :: rest, k, v =>
      if k' = k then (k, v) :: rest else (k', v') :: mapSet rest k v

/-- Pointwise update of a function-modelled map (for `distances` / `previous`). -/
def fUpd {α : Type} (f : String → α) (k : String) (v : α) : String → α :=
  fun x => if x = k then v else f x

/-- The private state of class `DijkstraRouter`: `nodes` and `edges` maps. -/
structure Graph where
  nodes : List (String × GraphNode)
  edges : List (String × List GraphEdge)
deriving Repr

/-- Keys of the node map. -/
def nodeKeys (g : Graph) : List String := g.nodes.map Prod.fst

/-- `this.nodes.get(id)`. -/
def getNode (g : Graph) (id : String) : Option GraphNode := mapGet g.nodes id

/-- `this.nodes.has(id)`. -/
def hasNode (g : Graph) (id : String) : Prop := (getNode g id).isSome

instance (g : Graph) (id : String) : Decidable (hasNode g id) := by
  unfold hasNode; infer_instance

/-- `this.edges.get(id) || []`. -/
def getEdges (g : Graph) (id : String) : List GraphEdge := (mapGet g.edges id).getD []

/-- The private `addEdge` method: push onto the `from` node's list, creating
the entry first when absent. -/
def addEdge (g : Graph) (e : GraphEdge) : Graph :=
  { g with edges := mapSet g.edges e.«from» ((mapGet g.edges e.«from»).getD [] ++ [e]) }

/-- The `optimizeFor` argument of `findShortestPath`. -/
inductive Mode
  | distance | time | cost
deriving DecidableEq, Repr

/-- The per-edge weight selected by `optimizeFor` (the `switch` statement). -/
def edgeWeight (optimizeFor : Mode) (e : GraphEdge) : ℚ :=
  match optimizeFor with
  | .time => e.time * e.trafficFactor
  | .cost => e.cost + e.tollCost
  | .distance => e.distance

/-- Mutable state of one `findShortestPath` run. -/
structure DState where
  distances : String → Option (WithTop ℚ)
  previous : String → Option (Option String)
  visited : List String
  unvisited : List String

/-- The scan for the unvisited node with minimum tentative distance.
A `none` (JS `undefined`) entry never compares below the running minimum,
matching `undefined < x` being false in JS. -/
def scanMin (dist : String → Option (WithTop ℚ)) :
    List String → Option String × WithTop ℚ → Option String × WithTop ℚ
  | [], acc => acc
  | x :: xs, acc =>
      match dist x with
      | none => scanMin dist xs acc
      | some d => if d < acc.2 then scanMin dist xs (some x, d) else scanMin dist xs acc

/-- Scan of the whole `unvisited` set starting from `(null, Infinity)`. -/
def selectMin (dist : String → Option (WithTop ℚ)) (l : List String) :
    Option String × WithTop ℚ :=
  scanMin dist l (none, ⊤)

/-- One relaxation of edge `e` out of `u` (one iteration of the neighbour
loop).  Visited targets are skipped; comparisons against absent entries
(JS `undefined`) are false, so nothing is updated for them. -/
def relaxStep (optimizeFor : Mode) (visited : List String) (u : String)
    (dp : (String → Option (WithTop ℚ)) × (String → Option (Option String)))
    (e : GraphEdge) :
    (String → Option (WithTop ℚ)) × (String → Option (Option String)) :=
  if e.«to» ∈ visited then dp
  else
    match dp.1 u with
    | none => dp
    | some du =>
      let nd : WithTop ℚ := du + (edgeWeight optimizeFor e : ℚ)
      match dp.1 e.«to» with
      | none => dp
      | some dv =>
          if nd < dv then (fUpd dp.1 e.«to» (some nd), fUpd dp.2 e.«to» (some (some u)))
          else dp

/-- Relax every edge out of `u` (the `for (const edge of edges)` loop). -/
def relaxAll (g : Graph) (optimizeFor : Mode) (visited : List String) (u : String)
    (dp : (String → Option (WithTop ℚ)) × (String → Option (Option String))) :
    (String → Option (WithTop ℚ)) × (String → Option (Option String)) :=
  (getEdges g u).foldl (relaxStep optimizeFor visited u) dp

/-- The main `while (unvisited.size > 0)` loop.  Each iteration removes
exactly one node from `unvisited`, so running it with budget
`st.unvisited.length` is the unbounded loop. -/
def dijkstraGo (g : Graph) (optimizeFor : Mode) (endId : String) :
    Nat → DState → DState
  | 0, st => st
  | fuel + 1, st =>
      if st.unvisited.isEmpty then st
      else
        match selectMin st.distances st.unvisited with
        | (none, _) => st
        | (some u, md) =>
            if md = ⊤ then st
            else
              let st1 : DState :=
                ⟨st.distances, st.previous, u :: st.visited, st.unvisited.erase u⟩
              if u = endId then st1
              else
                let dp := relaxAll g optimizeFor st1.visited u (st1.distances, st1.previous)
                dijkstraGo g optimizeFor endId fuel ⟨dp.1, dp.2, st1.visited, st1.unvisited⟩

/-- The path-reconstruction loop (`while (current !== null)`), walking
`previous` links backward and prepending.  A `prev` lookup of `none`
(absent key, JS `undefined`) stops the walk; this branch is unreachable in
states produced by the algorithm, where the walk reaches `null` within the
budget. -/
def buildPathAux (prev : String → Option (Option String)) :
    Nat → Option String → List String → List String
  | 0, _, acc => acc
  | _, none, acc => acc
  | fuel + 1, some c, acc =>
      match prev c with
      | none => c :: acc
      | some pc => buildPathAux prev fuel pc (c :: acc)

/-- A label for a road class (the `roadTypeMap` object). -/
def roadTypeLabel : RoadType → String
  | .national_highway => "National Highway"
  | .state_highway => "State Highway"
  | .expressway => "Expressway"
  | .city_road => "City Road"

/-- The private `generateInstructions` method. -/
def generateInstructions (fromNode toNode : GraphNode) (e : GraphEdge) : String :=
  "Continue on " ++ roadTypeLabel e.roadType ++ " from " ++ fromNode.name ++
    " to " ++ toNode.name ++ " (" ++ toString e.distance ++ " km)"

/-- `edges.find(e => e.«to» === toId)` for one consecutive pair of the path. -/
def stepEdge (g : Graph) (fromId toId : String) : Option GraphEdge :=
  (getEdges g fromId).find? (fun e => e.«to» == toId)

/-- `Math.round`: for every finite IEEE number, `Math.round x = ⌊x + 1/2⌋`. -/
def roundJS (q : ℚ) : ℤ := ⌊q + 1 / 2⌋

/-- The three running totals of `buildRouteResult`, accumulated over the
consecutive pairs of the path whose connecting edge is found. -/
def routeTotals (g : Graph) (path : List String) : ℚ × ℚ × ℚ :=
  (path.zip path.tail).foldl
    (fun acc pr =>
      match stepEdge g pr.1 pr.2 with
      | some e =>
          (acc.1 + e.distance, acc.2.1 + e.time * e.trafficFactor,
            acc.2.2 + (e.cost + e.tollCost))
      | none => acc)
    (0, 0, 0)

/-- The `coordinates` array of `buildRouteResult`: one entry per pair for the
`from` node, plus the final node.  (A missing node makes the JS source throw;
here the entry is skipped, and the branch is unreachable for solver paths.) -/
def routeCoordinates (g : Graph) (path : List String) : List (ℚ × ℚ) :=
  ((path.zip path.tail).filterMap fun pr => (getNode g pr.1).map fun n => (n.lat, n.lng)) ++
    match path.getLast? with
    | some lastId =>
        match getNode g lastId with
        | some n => [(n.lat, n.lng)]
        | none => []
    | none => []

/-- The `segments` array of `buildRouteResult`. -/
def routeSegments (g : Graph) (path : List String) : List RouteSegment :=
  (path.zip path.tail).filterMap fun pr =>
    match getNode g pr.1, getNode g pr.2, stepEdge g pr.1 pr.2 with
    | some fn, some tn, some e =>
        some ⟨fn, tn, e.distance, e.time * e.trafficFactor, roadTypeLabel e.roadType,
          generateInstructions fn tn e⟩
    | _, _, _ => none

/-- The private `buildRouteResult` method: totals are `Math.round`ed. -/
def buildRouteResult (g : Graph) (path : List String) : RouteResult :=
  let t := routeTotals g path
  { path := path
    totalDistance := ((roundJS t.1 : ℤ) : ℚ)
    totalTime := ((roundJS t.2.1 : ℤ) : ℚ)
    totalCost := ((roundJS t.2.2 : ℤ) : ℚ)
    coordinates := routeCoordinates g path
    segments := routeSegments g path }

/-- `findShortestPath(startId, endId, optimizeFor)`. -/
def findShortestPath (g : Graph) (startId endId : String)
    (optimizeFor : Mode := .distance) : Option RouteResult :=
  if hasNode g startId ∧ hasNode g endId then
    let keys := nodeKeys g
    let dist0 : String → Option (WithTop ℚ) := fun x => if x ∈ keys then some ⊤ else none
    let prev0 : String → Option (Option String) := fun x => if x ∈ keys then some none else none
    let st0 : DState := ⟨fUpd dist0 startId (some 0), prev0, [], keys⟩
    let stf := dijkstraGo g optimizeFor endId st0.unvisited.length st0
    let path := buildPathAux stf.previous (keys.length + 1) (some endId) []
    if path.head? = some startId then some (buildRouteResult g path) else none
  else none

/-- `JSON.stringify(route1.path) === JSON.stringify(route2.path)` on string
arrays is elementwise equality; `routesEqual` is false when either is null. -/
def routesEqual (route1 route2 : Option RouteResult) : Bool :=
  match route1, route2 with
  | some a, some b => a.path == b.path
  | _, _ => false

/-- `findMultipleRoutes(startId, endId)`. -/
def findMultipleRoutes (g : Graph) (startId endId : String) : List RouteResult :=
  let shortestRoute := findShortestPath g startId endId .distance
  let routes : List RouteResult := match shortestRoute with | some r => [r] | none => []
  let fastestRoute := findShortestPath g startId endId .time
  let routes : List RouteResult :=
    match fastestRoute with
    | some r => if routesEqual shortestRoute fastestRoute then routes else routes ++ [r]
    | none => routes
  let economicalRoute := findShortestPath g startId endId .cost
  match economicalRoute with
  | some r =>
      if routes.any (fun x => routesEqual (some x) economicalRoute) then routes
      else routes ++ [r]
  | none => routes

/-- Candidate neighbours of a dynamic node: every other entry of the node
map whose distance (per the supplied great-circle function) is below 100. -/
def nearbyCandidates (hav : GraphNode → GraphNode → ℚ)
    (nodes : List (String × GraphNode)) (newNode : GraphNode) :
    List (GraphNode × ℚ) :=
  nodes.filterMap fun p =>
    if p.1 = newNode.id then none
    else
      let d := hav newNode p.2
      if d < 100 then some (p.2, d) else none

/-- One synthesized edge of `connectToNearestNodes`: note the source computes
`estimatedTime = distance / 60`. -/
def dynEdge (newNode : GraphNode) (p : GraphNode × ℚ) : GraphEdge :=
  { «from» := newNode.id, «to» := p.1.id, distance := p.2, time := p.2 / 60,
    cost := p.2 * 8, roadType := .state_highway, tollCost := 0, trafficFactor := 1 }

/-- The private `connectToNearestNodes` method.  The transcendental
`calculateHaversineDistance` (built from `Math.sin`/`cos`/`atan2`/`sqrt`)
is abstracted as the parameter `hav`; every theorem below is uniform in it.
`Array.prototype.sort` with comparator `a.distance - b.distance` is a stable
ascending sort, and any two stable ascending sorts of the same list agree,
so it is modelled by insertion sort. -/
def connectToNearestNodes (hav : GraphNode → GraphNode → ℚ) (g : Graph)
    (newNode : GraphNode) : Graph :=
  let nearbyNodes := nearbyCandidates hav g.nodes newNode
  let sorted := nearbyNodes.insertionSort (fun a b => a.2 ≤ b.2)
  (sorted.take 3).foldl
    (fun g p =>
      let e := dynEdge newNode p
      addEdge (addEdge g e) { e with «from» := p.1.id, «to» := newNode.id })
    g

/-- `addDynamicNode(node)`: set the node, reset its adjacency entry to `[]`,
then connect to the nearest candidates. -/
def addDynamicNode (hav : GraphNode → GraphNode → ℚ) (g : Graph)
    (node : GraphNode) : Graph :=
  connectToNearestNodes hav
    { nodes := mapSet g.nodes node.id node, edges := mapSet g.edges node.id [] } node

/-- The `indianNodes` seed array of `initializeIndianRoadNetwork`. -/
def indianNodes : List GraphNode :=
  [ ⟨"mumbai", 19.0760, 72.8777, "Mumbai", .city⟩,
    ⟨"delhi", 28.6139, 77.2090, "Delhi", .city⟩,
    ⟨"bangalore", 12.9716, 77.5946, "Bangalore", .city⟩,
    ⟨"chennai", 13.0827, 80.2707, "Chennai", .city⟩,
    ⟨"kolkata", 22.5726, 88.3639, "Kolkata", .city⟩,
    ⟨"pune", 18.5204, 73.8567, "Pune", .city⟩,
    ⟨"hyderabad", 17.3850, 78.4867, "Hyderabad", .city⟩,
    ⟨"ahmedabad", 23.0225, 72.5714, "Ahmedabad", .city⟩,
    ⟨"jaipur", 26.9124, 75.7873, "Jaipur", .city⟩,
    ⟨"surat", 21.1702, 72.8311, "Surat", .city⟩,
    ⟨"panvel_junction", 18.9894, 73.1103, "Panvel Junction", .junction⟩,
    ⟨"vadodara_junction", 22.3072, 73.1812, "Vadodara Junction", .junction⟩,
    ⟨"indore_junction", 22.7196, 75.8577, "Indore Junction", .junction⟩,
    ⟨"nagpur_junction", 21.1458, 79.0882, "Nagpur Junction", .junction⟩,
    ⟨"khalapur_toll", 18.8642, 73.3467, "Khalapur Toll Plaza", .toll⟩,
    ⟨"khed_toll", 18.7197, 73.4000, "Khed Toll Plaza", .toll⟩,
    ⟨"lonavala_fuel", 18.7537, 73.4068, "Lonavala Fuel Station", .fuel⟩,
    ⟨"nashik_fuel", 19.9975, 73.7898, "Nashik Fuel Station", .fuel⟩ ]

/-- The `indianEdges` seed array of `initializeIndianRoadNetwork`. -/
def indianEdges : List GraphEdge :=
  [ ⟨"mumbai", "panvel_junction", 42, 45, 50, .expressway, 0, 1.2⟩,
    ⟨"panvel_junction", "khalapur_toll", 28, 25, 30, .expressway, 85, 1.0⟩,
    ⟨"khalapur_toll", "lonavala_fuel", 35, 30, 40, .expressway, 0, 1.0⟩,
    ⟨"lonavala_fuel", "pune", 25, 25, 30, .expressway, 65, 1.1⟩,
    ⟨"mumbai", "surat", 284, 300, 350, .national_highway, 150, 1.3⟩,
    ⟨"surat", "vadodara_junction", 125, 120, 150, .national_highway, 80, 1.1⟩,
    ⟨"vadodara_junction", "ahmedabad", 110, 105, 130, .national_highway, 70, 1.2⟩,
    ⟨"delhi", "jaipur", 280, 300, 350, .national_highway, 120, 1.4⟩,
    ⟨"jaipur", "ahmedabad", 680, 720, 850, .national_highway, 280, 1.2⟩,
    ⟨"bangalore", "chennai", 346, 360, 420, .national_highway, 180, 1.3⟩,
    ⟨"bangalore", "hyderabad", 569, 600, 700, .national_highway, 250, 1.2⟩,
    ⟨"delhi", "nagpur_junction", 1050, 1200, 1300, .national_highway, 450, 1.3⟩,
    ⟨"nagpur_junction", "kolkata", 520, 600, 650, .national_highway, 220, 1.2⟩ ]

/-- The reverse edge inserted for each seed edge (and, via an object spread,
for each dynamically synthesized edge): endpoints swapped, attributes kept. -/
def reverseEdge (e : GraphEdge) : GraphEdge := { e with «from» := e.«to», «to» := e.«from» }

/-- The private `initializeIndianRoadNetwork` method, run by the constructor:
insert every seed node with an empty adjacency entry, then insert every seed
edge together with its reverse. -/
def initializeIndianRoadNetwork : Graph :=
  let g1 : Graph :=
    indianNodes.foldl
      (fun g n => { nodes := mapSet g.nodes n.id n, edges := mapSet g.edges n.id [] })
      ⟨[], []⟩
  indianEdges.foldl (fun g e => addEdge (addEdge g e) (reverseEdge e)) g1

/-- The module-level singleton `dijkstraRouter`'s graph. -/
def dijkstraRouter : Graph := initializeIndianRoadNetwork

/-! ## Specification-side notions

A path in the graph is a chain of edges taken from the adjacency lists,
each starting where the previous one ended. -/

/-- `EdgeChain g a es c`: the edges `es`, read in order from the adjacency
of the node reached so far, lead from `a` to `c`. -/
inductive EdgeChain (g : Graph) : String → List GraphEdge → String → Prop
  | nil (a : String) : EdgeChain g a [] a
  | cons {a c : String} {e : GraphEdge} {es : List GraphEdge} :
      e ∈ getEdges g a → EdgeChain g e.«to» es c → EdgeChain g a (e :: es) c

/-- Total weight of a chain of edges under a mode. -/
def chainWeight (mode : Mode) (es : List GraphEdge) : ℚ :=
  (es.map (edgeWeight mode)).sum

/-- The node sequence visited by a chain starting at `a`. -/
def chainNodes (a : String) (es : List GraphEdge) : List String :=
  a :: es.map (fun e => e.«to»)

/-- Graph well-formedness, the data-model invariant of the specification:
every adjacency key and every edge target is a key of the node set. -/
def WellFormed (g : Graph) : Prop :=
  (∀ p ∈ g.edges, p.1 ∈ nodeKeys g) ∧ ∀ p ∈ g.edges, ∀ e ∈ p.2, e.«to» ∈ nodeKeys g

/-- All stored edges have nonnegative weight under `mode` (the spec notes the
weight functions never produce negative weights). -/
def NonnegWeights (g : Graph) (mode : Mode) : Prop :=
  ∀ p ∈ g.edges, ∀ e ∈ p.2, 0 ≤ edgeWeight mode e

instance (g : Graph) : Decidable (WellFormed g) := by
  unfold WellFormed; infer_instance

instance (g : Graph) (mode : Mode) : Decidable (NonnegWeights g mode) := by
  unfold NonnegWeights; infer_instance

/-- `PrevChain prev c p`: following `previous` links backward from `c`
reaches the `null` marker, and prepending along the walk yields `p`
(so `p` is exactly what the reconstruction loop builds). -/
inductive PrevChain (prev : String → Option (Option String)) : String → List String → Prop
  | root {c : String} : prev c = some none → PrevChain prev c [c]
  | step {c u : String} {p : List String} :
      prev c = some (some u) → PrevChain prev u p → PrevChain prev c (p ++ [c])

/-! ## Basic lemmas about the map model -/

theorem mapGet_mapSet_self {α : Type} (m : List (String × α)) (k : String) (v : α) :
    mapGet (mapSet m k v) k = some v := by
  induction m with
  | nil => simp [mapGet, mapSet]
  | cons p rest ih =>
      by_cases h : p.1 = k
      · obtain ⟨k', v'⟩ := p
        simp only at h
        simp [mapGet, mapSet, h]
      · obtain ⟨k', v'⟩ := p
        simp only at h
        simp [mapGet, mapSet, h, ih]

theorem mapGet_mapSet_ne {α : Type} (m : List (String × α)) (k k' : String) (v : α)
    (h : k' ≠ k) : mapGet (mapSet m k v) k' = mapGet m k' := by
  induction m with
  | nil =>
      simp only [mapSet, mapGet]
      rw [if_neg (Ne.symm h)]
  | cons p rest ih =>
      obtain ⟨k₀, v₀⟩ := p
      by_cases h0 : k₀ = k
      · subst h0
        simp only [mapSet, if_pos rfl, mapGet]
        rw [if_neg (Ne.symm h), if_neg (Ne.symm h)]
      · simp only [mapSet, if_neg h0, mapGet]
        by_cases h1 : k₀ = k'
        · rw [if_pos h1, if_pos h1]
        · rw [if_neg h1, if_neg h1]
          exact ih

theorem mapGet_mem {α : Type} {m : List (String × α)} {k : String} {v : α}
    (h : mapGet m k = some v) : (k, v) ∈ m := by
  induction m with
  | nil => simp [mapGet] at h
  | cons p rest ih =>
      obtain ⟨k₀, v₀⟩ := p
      by_cases h0 : k₀ = k
      · subst h0
        simp only [mapGet, if_true, eq_self_iff_true, Option.some.injEq] at h
        rw [← h]
        exact List.mem_cons_self _ _
      · simp only [mapGet, if_neg h0] at h
        exact List.mem_cons_of_mem _ (ih h)

theorem mapGet_isSome_iff {α : Type} (m : List (String × α)) (k : String) :
    (mapGet m k).isSome ↔ k ∈ m.map Prod.fst := by
  induction m with
  | nil => simp [mapGet]
  | cons p rest ih =>
      obtain ⟨k₀, v₀⟩ := p
      by_cases h0 : k₀ = k
      · subst h0
        simp [mapGet]
      · simp only [mapGet, if_neg h0, List.map_cons, List.mem_cons]
        rw [ih]
        constructor
        · exact Or.inr
        · rintro (hh | hh)
          · exact absurd hh.symm h0
          · exact hh

theorem fUpd_self {α : Type} (f : String → α) (k : String) (v : α) :
    fUpd f k v k = v := by simp [fUpd]

theorem fUpd_ne {α : Type} (f : String → α) (k x : String) (v : α) (h : x ≠ k) :
    fUpd f k v x = f x := by simp [fUpd, h]

theorem mem_getEdges_exists {g : Graph} {a : String} {e : GraphEdge}
    (h : e ∈ getEdges g a) : ∃ l, (a, l) ∈ g.edges ∧ e ∈ l := by
  unfold getEdges at h
  cases hm : mapGet g.edges a with
  | none => rw [hm] at h; simp at h
  | some l =>
      rw [hm] at h
      exact ⟨l, mapGet_mem hm, h⟩

theorem getEdges_target_mem {g : Graph} (hWF : WellFormed g) {a : String} {e : GraphEdge}
    (h : e ∈ getEdges g a) : e.«to» ∈ nodeKeys g := by
  obtain ⟨l, hl, hel⟩ := mem_getEdges_exists h
  exact hWF.2 _ hl e hel

theorem getEdges_key_mem {g : Graph} (hWF : WellFormed g) {a : String} {e : GraphEdge}
    (h : e ∈ getEdges g a) : a ∈ nodeKeys g := by
  obtain ⟨l, hl, _⟩ := mem_getEdges_exists h
  exact hWF.1 _ hl

theorem getEdges_weight_nonneg {g : Graph} {mode : Mode} (hNN : NonnegWeights g mode)
    {a : String} {e : GraphEdge} (h : e ∈ getEdges g a) : 0 ≤ edgeWeight mode e := by
  obtain ⟨l, hl, hel⟩ := mem_getEdges_exists h
  exact hNN _ hl e hel

theorem hasNode_iff_mem_nodeKeys (g : Graph) (x : String) :
    hasNode g x ↔ x ∈ nodeKeys g := by
  unfold hasNode getNode nodeKeys
  exact mapGet_isSome_iff _ _

/-! ## Lemmas about edge chains -/

theorem chainWeight_nil (mode : Mode) : chainWeight mode [] = 0 := rfl

theorem chainWeight_cons (mode : Mode) (e : GraphEdge) (es : List GraphEdge) :
    chainWeight mode (e :: es) = edgeWeight mode e + chainWeight mode es := by
  simp [chainWeight]

theorem chainWeight_append (mode : Mode) (es es' : List GraphEdge) :
    chainWeight mode (es ++ es') = chainWeight mode es + chainWeight mode es' := by
  simp [chainWeight]

theorem chainWeight_nonneg {g : Graph} {mode : Mode} (hNN : NonnegWeights g mode)
    {a c : String} {es : List GraphEdge} (h : EdgeChain g a es c) :
    0 ≤ chainWeight mode es := by
  induction h with
  | nil => simp [chainWeight]
  | cons he _ ih =>
      rw [chainWeight_cons]
      exact add_nonneg (getEdges_weight_nonneg hNN he) ih

theorem EdgeChain.append_edge {g : Graph} {a c : String} {es : List GraphEdge}
    (h : EdgeChain g a es c) {e : GraphEdge} (he : e ∈ getEdges g c) :
    EdgeChain g a (es ++ [e]) e.«to» := by
  induction h with
  | nil => exact EdgeChain.cons he (EdgeChain.nil _)
  | cons he' _ ih => exact EdgeChain.cons he' (ih he)

theorem chainNodes_append_edge (a : String) (es : List GraphEdge) (e : GraphEdge) :
    chainNodes a (es ++ [e]) = chainNodes a es ++ [e.«to»] := by
  simp [chainNodes]

theorem EdgeChain.nodes_mem {g : Graph} (hWF : WellFormed g) {a c : String}
    {es : List GraphEdge} (h : EdgeChain g a es c) (ha : a ∈ nodeKeys g) :
    ∀ x ∈ chainNodes a es, x ∈ nodeKeys g := by
  induction h with
  | nil => intro x hx; simp [chainNodes] at hx; subst hx; exact ha
  | cons he hch ih =>
      intro x hx
      simp only [chainNodes, List.map_cons, List.mem_cons] at hx
      rcases hx with rfl | hx
      · exact ha
      · exact ih (getEdges_target_mem hWF he) x (by simpa [chainNodes] using hx)

theorem EdgeChain.last_mem {g : Graph} (hWF : WellFormed g) {a c : String}
    {es : List GraphEdge} (h : EdgeChain g a es c) (ha : a ∈ nodeKeys g) :
    c ∈ nodeKeys g := by
  induction h with
  | nil => exact ha
  | cons he _ ih => exact ih (getEdges_target_mem hWF he)

/-! ## Lemmas about predecessor chains -/

theorem PrevChain.ne_nil {prev : String → Option (Option String)} {c : String}
    {p : List String} (h : PrevChain prev c p) : p ≠ [] := by
  cases h with
  | root _ => simp
  | step _ _ => simp

theorem PrevChain.getLast {prev : String → Option (Option String)} {c : String}
    {p : List String} (h : PrevChain prev c p) : p.getLast? = some c := by
  cases h with
  | root _ => rfl
  | step _ _ => simp [List.getLast?_append]

theorem PrevChain.head_root {prev : String → Option (Option String)} {c : String}
    {p : List String} (h : PrevChain prev c p) :
    ∃ r, p.head? = some r ∧ prev r = some none := by
  induction h with
  | root hr => exact ⟨_, rfl, hr⟩
  | step _ hch ih =>
      obtain ⟨r, hr, hroot⟩ := ih
      obtain ⟨b, L, rfl⟩ := List.exists_cons_of_ne_nil hch.ne_nil
      exact ⟨r, by simpa using hr, hroot⟩

/-! ## Properties of the minimum scan -/

theorem scanMin_isSome_mono (dist : String → Option (WithTop ℚ)) (l : List String)
    (acc : Option String × WithTop ℚ) (h : acc.1.isSome) :
    (scanMin dist l acc).1.isSome := by
  induction l generalizing acc with
  | nil => exact h
  | cons x xs ih =>
      cases hdx : dist x with
      | none =>
          simp only [scanMin, hdx]
          exact ih _ h
      | some d =>
          simp only [scanMin, hdx]
          by_cases hlt : d < acc.2
          · rw [if_pos hlt]; exact ih _ (by simp)
          · rw [if_neg hlt]; exact ih _ h

theorem scanMin_eq_acc_of_none (dist : String → Option (WithTop ℚ)) (l : List String)
    (acc : Option String × WithTop ℚ) (h : (scanMin dist l acc).1 = none) :
    scanMin dist l acc = acc := by
  induction l generalizing acc with
  | nil => rfl
  | cons x xs ih =>
      cases hdx : dist x with
      | none =>
          simp only [scanMin, hdx] at h ⊢
          exact ih _ h
      | some d =>
          simp only [scanMin, hdx] at h ⊢
          by_cases hlt : d < acc.2
          · rw [if_pos hlt] at h ⊢
            have := scanMin_isSome_mono dist xs (some x, d) (by simp)
            rw [h] at this
            simp at this
          · rw [if_neg hlt] at h ⊢
            exact ih _ h

theorem scanMin_some_src (dist : String → Option (WithTop ℚ)) (l : List String)
    (acc : Option String × WithTop ℚ) {u : String}
    (h : (scanMin dist l acc).1 = some u) :
    (acc.1 = some u ∧ (scanMin dist l acc).2 = acc.2) ∨
      (u ∈ l ∧ dist u = some (scanMin dist l acc).2) := by
  induction l generalizing acc with
  | nil => exact Or.inl ⟨h, rfl⟩
  | cons x xs ih =>
      cases hdx : dist x with
      | none =>
          simp only [scanMin, hdx] at h ⊢
          rcases ih _ h with h' | h'
          · exact Or.inl h'
          · exact Or.inr ⟨List.mem_cons_of_mem _ h'.1, h'.2⟩
      | some d =>
          simp only [scanMin, hdx] at h ⊢
          by_cases hlt : d < acc.2
          · rw [if_pos hlt] at h ⊢
            rcases ih _ h with h' | h'
            · simp only at h'
              obtain ⟨h1, h2⟩ := h'
              cases h1
              exact Or.inr ⟨List.mem_cons_self _ _, by rw [h2]; exact hdx⟩
            · exact Or.inr ⟨List.mem_cons_of_mem _ h'.1, h'.2⟩
          · rw [if_neg hlt] at h ⊢
            rcases ih _ h with h' | h'
            · exact Or.inl h'
            · exact Or.inr ⟨List.mem_cons_of_mem _ h'.1, h'.2⟩

theorem scanMin_snd_le_acc (dist : String → Option (WithTop ℚ)) (l : List String)
    (acc : Option String × WithTop ℚ) : (scanMin dist l acc).2 ≤ acc.2 := by
  induction l generalizing acc with
  | nil => exact le_rfl
  | cons x xs ih =>
      cases hdx : dist x with
      | none => simp only [scanMin, hdx]; exact ih _
      | some d =>
          simp only [scanMin, hdx]
          by_cases hlt : d < acc.2
          · rw [if_pos hlt]
            exact le_trans (ih (some x, d)) (le_of_lt hlt)
          · rw [if_neg hlt]
            exact ih _

theorem scanMin_snd_min (dist : String → Option (WithTop ℚ)) (l : List String)
    (acc : Option String × WithTop ℚ) :
    ∀ x ∈ l, ∀ dx, dist x = some dx → (scanMin dist l acc).2 ≤ dx := by
  induction l generalizing acc with
  | nil => intro x hx; simp at hx
  | cons y ys ih =>
      intro x hx dx hdx
      rcases List.mem_cons.mp hx with rfl | hx'
      · simp only [scanMin, hdx]
        by_cases hlt : dx < acc.2
        · rw [if_pos hlt]
          exact le_trans (scanMin_snd_le_acc dist ys (some x, dx)) (by simp)
        · rw [if_neg hlt]
          exact le_trans (scanMin_snd_le_acc dist ys acc) (le_of_not_lt hlt)
      · cases hdy : dist y with
        | none => simp only [scanMin, hdy]; exact ih _ x hx' dx hdx
        | some d =>
            simp only [scanMin, hdy]
            by_cases hlt : d < acc.2
            · rw [if_pos hlt]; exact ih _ x hx' dx hdx
            · rw [if_neg hlt]; exact ih _ x hx' dx hdx

theorem scanMin_lt_top (dist : String → Option (WithTop ℚ)) (l : List String)
    (acc : Option String × WithTop ℚ) (hacc : acc.1.isSome → acc.2 < ⊤)
    (h : (scanMin dist l acc).1.isSome) : (scanMin dist l acc).2 < ⊤ := by
  induction l generalizing acc with
  | nil => exact hacc h
  | cons x xs ih =>
      cases hdx : dist x with
      | none =>
          simp only [scanMin, hdx] at h ⊢
          exact ih _ hacc h
      | some d =>
          simp only [scanMin, hdx] at h ⊢
          by_cases hlt : d < acc.2
          · rw [if_pos hlt] at h ⊢
            refine ih _ (fun _ => ?_) h
            exact lt_of_lt_of_le hlt le_top
          · rw [if_neg hlt] at h ⊢
            exact ih _ hacc h

theorem selectMin_none (dist : String → Option (WithTop ℚ)) (l : List String)
    (h : (selectMin dist l).1 = none) :
    ∀ x ∈ l, dist x = none ∨ dist x = some ⊤ := by
  induction l with
  | nil => intro x hx; simp at hx
  | cons y ys ih =>
      intro x hx
      unfold selectMin at h ih
      rcases List.mem_cons.mp hx with rfl | hx'
      · cases hdx : dist x with
        | none => exact Or.inl rfl
        | some d =>
            simp only [scanMin, hdx] at h
            by_cases hlt : d < ⊤
            · rw [if_pos hlt] at h
              have := scanMin_isSome_mono dist ys (some x, d) (by simp)
              rw [h] at this
              simp at this
            · right
              have : d = ⊤ := top_le_iff.mp (le_of_not_lt hlt)
              rw [this]
      · cases hdy : dist y with
        | none =>
            simp only [scanMin, hdy] at h
            exact ih h x hx'
        | some d =>
            simp only [scanMin, hdy] at h
            by_cases hlt : d < ⊤
            · rw [if_pos hlt] at h
              have := scanMin_isSome_mono dist ys (some y, d) (by simp)
              rw [h] at this
              simp at this
            · rw [if_neg hlt] at h
              exact ih h x hx'

theorem selectMin_some (dist : String → Option (WithTop ℚ)) (l : List String)
    {u : String} {md : WithTop ℚ} (h : selectMin dist l = (some u, md)) :
    u ∈ l ∧ dist u = some md ∧ md < ⊤ ∧
      ∀ x ∈ l, ∀ dx, dist x = some dx → md ≤ dx := by
  unfold selectMin at h
  have h1 : (scanMin dist l (none, ⊤)).1 = some u := by rw [h]
  have h2 : (scanMin dist l (none, ⊤)).2 = md := by rw [h]
  rcases scanMin_some_src dist l (none, ⊤) h1 with h' | h'
  · simp at h'
  · refine ⟨h'.1, by rw [← h2]; exact h'.2, ?_, ?_⟩
    · rw [← h2]
      exact scanMin_lt_top dist l (none, ⊤) (by simp) (by rw [h1]; rfl)
    · intro x hx dx hdx
      rw [← h2]
      exact scanMin_snd_min dist l (none, ⊤) x hx dx hdx

/-! ## Properties of one relaxation step -/

theorem relaxStep_cases (optimizeFor : Mode) (vis : List String) (u : String)
    (dp : (String → Option (WithTop ℚ)) × (String → Option (Option String)))
    (e : GraphEdge) :
    (relaxStep optimizeFor vis u dp e = dp ∧
      (e.«to» ∈ vis ∨ dp.1 u = none ∨ dp.1 e.«to» = none ∨
        ∃ du dv, dp.1 u = some du ∧ dp.1 e.«to» = some dv ∧
          dv ≤ du + (edgeWeight optimizeFor e : ℚ))) ∨
    (e.«to» ∉ vis ∧ ∃ du dv, dp.1 u = some du ∧ dp.1 e.«to» = some dv ∧
      du + (edgeWeight optimizeFor e : ℚ) < dv ∧
      relaxStep optimizeFor vis u dp e =
        (fUpd dp.1 e.«to» (some (du + (edgeWeight optimizeFor e : ℚ))),
          fUpd dp.2 e.«to» (some (some u)))) := by
  by_cases hv : e.«to» ∈ vis
  · exact Or.inl ⟨by simp [relaxStep, hv], Or.inl hv⟩
  · rcases Option.eq_none_or_eq_some (dp.1 u) with hdu | ⟨du, hdu⟩
    · exact Or.inl ⟨by simp [relaxStep, hv, hdu], Or.inr (Or.inl hdu)⟩
    · rcases Option.eq_none_or_eq_some (dp.1 e.«to») with hdv | ⟨dv, hdv⟩
      · exact Or.inl ⟨by simp [relaxStep, hv, hdu, hdv], Or.inr (Or.inr (Or.inl hdv))⟩
      · by_cases hlt : du + (edgeWeight optimizeFor e : ℚ) < dv
        · refine Or.inr ⟨hv, du, dv, hdu, hdv, hlt, ?_⟩
          simp [relaxStep, hv, hdu, hdv, hlt]
        · exact Or.inl ⟨by simp [relaxStep, hv, hdu, hdv, hlt],
            Or.inr (Or.inr (Or.inr ⟨du, dv, hdu, hdv, le_of_not_lt hlt⟩))⟩

theorem relaxStep_fst_vis {optimizeFor : Mode} {vis : List String} {u x : String}
    {dp : (String → Option (WithTop ℚ)) × (String → Option (Option String))}
    {e : GraphEdge} (hx : x ∈ vis) :
    (relaxStep optimizeFor vis u dp e).1 x = dp.1 x := by
  rcases relaxStep_cases optimizeFor vis u dp e with ⟨heq, _⟩ | ⟨hv, du, dv, _, _, _, heq⟩
  · rw [heq]
  · rw [heq]
    exact fUpd_ne _ _ _ _ (fun hh => hv (hh ▸ hx))

theorem relaxStep_snd_vis {optimizeFor : Mode} {vis : List String} {u x : String}
    {dp : (String → Option (WithTop ℚ)) × (String → Option (Option String))}
    {e : GraphEdge} (hx : x ∈ vis) :
    (relaxStep optimizeFor vis u dp e).2 x = dp.2 x := by
  rcases relaxStep_cases optimizeFor vis u dp e with ⟨heq, _⟩ | ⟨hv, du, dv, _, _, _, heq⟩
  · rw [heq]
  · rw [heq]
    exact fUpd_ne _ _ _ _ (fun hh => hv (hh ▸ hx))

theorem relaxStep_none_pres {optimizeFor : Mode} {vis : List String} {u x : String}
    {dp : (String → Option (WithTop ℚ)) × (String → Option (Option String))}
    {e : GraphEdge} (hx : dp.1 x = none) :
    (relaxStep optimizeFor vis u dp e).1 x = none := by
  rcases relaxStep_cases optimizeFor vis u dp e with ⟨heq, _⟩ | ⟨hv, du, dv, _, hdv, _, heq⟩
  · rw [heq]; exact hx
  · by_cases hxe : x = e.«to»
    · subst hxe
      rw [hx] at hdv
      exact absurd hdv (by simp)
    · rw [heq]
      show fUpd dp.1 e.«to» _ x = none
      rw [fUpd_ne _ _ _ _ hxe]
      exact hx

theorem relaxStep_mono {optimizeFor : Mode} {vis : List String} {u x : String}
    {dp : (String → Option (WithTop ℚ)) × (String → Option (Option String))}
    {e : GraphEdge} {dv' : WithTop ℚ}
    (h : (relaxStep optimizeFor vis u dp e).1 x = some dv') :
    ∃ dv, dp.1 x = some dv ∧ dv' ≤ dv := by
  rcases relaxStep_cases optimizeFor vis u dp e with ⟨heq, _⟩ | ⟨hv, du, dv, hdu, hdv, hlt, heq⟩
  · rw [heq] at h; exact ⟨dv', h, le_rfl⟩
  · rw [heq] at h
    by_cases hxe : x = e.«to»
    · subst hxe
      have h2 : fUpd dp.1 e.«to» (some (du + (edgeWeight optimizeFor e : ℚ)))
          e.«to» = some dv' := h
      rw [fUpd_self] at h2
      cases h2
      exact ⟨dv, hdv, le_of_lt hlt⟩
    · have h2 : fUpd dp.1 e.«to» (some (du + (edgeWeight optimizeFor e : ℚ)))
          x = some dv' := h
      rw [fUpd_ne _ _ _ _ hxe] at h2
      exact ⟨dv', h2, le_rfl⟩

/-! ## Properties of the full relaxation fold -/

theorem foldRelax_fst_vis {optimizeFor : Mode} {vis : List String} {u x : String}
    (es : List GraphEdge)
    (dp : (String → Option (WithTop ℚ)) × (String → Option (Option String)))
    (hx : x ∈ vis) :
    ((es.foldl (relaxStep optimizeFor vis u) dp).1 x = dp.1 x) := by
  induction es generalizing dp with
  | nil => rfl
  | cons e es ih =>
      rw [List.foldl_cons, ih _, relaxStep_fst_vis hx]

theorem foldRelax_snd_vis {optimizeFor : Mode} {vis : List String} {u x : String}
    (es : List GraphEdge)
    (dp : (String → Option (WithTop ℚ)) × (String → Option (Option String)))
    (hx : x ∈ vis) :
    ((es.foldl (relaxStep optimizeFor vis u) dp).2 x = dp.2 x) := by
  induction es generalizing dp with
  | nil => rfl
  | cons e es ih =>
      rw [List.foldl_cons, ih _, relaxStep_snd_vis hx]

theorem foldRelax_none_pres {optimizeFor : Mode} {vis : List String} {u x : String}
    (es : List GraphEdge)
    (dp : (String → Option (WithTop ℚ)) × (String → Option (Option String)))
    (hx : dp.1 x = none) :
    ((es.foldl (relaxStep optimizeFor vis u) dp).1 x = none) := by
  induction es generalizing dp with
  | nil => exact hx
  | cons e es ih =>
      rw [List.foldl_cons]
      exact ih _ (relaxStep_none_pres hx)

theorem foldRelax_mono {optimizeFor : Mode} {vis : List String} {u x : String}
    (es : List GraphEdge)
    (dp : (String → Option (WithTop ℚ)) × (String → Option (Option String)))
    {dv' : WithTop ℚ}
    (h : (es.foldl (relaxStep optimizeFor vis u) dp).1 x = some dv') :
    ∃ dv, dp.1 x = some dv ∧ dv' ≤ dv := by
  induction es generalizing dp dv' with
  | nil => exact ⟨dv', h, le_rfl⟩
  | cons e es ih =>
      rw [List.foldl_cons] at h
      obtain ⟨dv1, hdv1, hle1⟩ := ih _ h
      obtain ⟨dv0, hdv0, hle0⟩ := relaxStep_mono hdv1
      exact ⟨dv0, hdv0, le_trans hle1 hle0⟩

theorem foldRelax_relaxed {optimizeFor : Mode} {vis : List String} {u : String}
    (hu : u ∈ vis) (es : List GraphEdge) :
    ∀ dp, ∀ e ∈ es, e.«to» ∉ vis →
      ∀ du dv, ((es.foldl (relaxStep optimizeFor vis u) dp).1 u = some du) →
        ((es.foldl (relaxStep optimizeFor vis u) dp).1 e.«to» = some dv) →
        dv ≤ du + (edgeWeight optimizeFor e : ℚ) := by
  induction es with
  | nil => intro dp e he; simp at he
  | cons e0 es ih =>
      intro dp e he hev du dv hdu hdv
      rw [List.foldl_cons] at hdu hdv
      rcases List.mem_cons.mp he with rfl | he'
      · have hu1 : (es.foldl (relaxStep optimizeFor vis u) (relaxStep optimizeFor vis u dp e)).1 u
            = (relaxStep optimizeFor vis u dp e).1 u := foldRelax_fst_vis es _ hu
        rw [hu1] at hdu
        obtain ⟨dv1, hdv1, hle⟩ := foldRelax_mono es _ hdv
        rcases relaxStep_cases optimizeFor vis u dp e with
          ⟨heq, hcase⟩ | ⟨hnv, du0, dv0, hdu0, hdv0, hlt, heq⟩
        · rw [heq] at hdu hdv1
          rcases hcase with hin | hun | htn | ⟨du', dv', hdu', hdv', hb⟩
          · exact absurd hin hev
          · rw [hun] at hdu; cases hdu
          · rw [htn] at hdv1; cases hdv1
          · rw [hdu'] at hdu
            rw [hdv'] at hdv1
            cases hdu
            cases hdv1
            exact le_trans hle hb
        · have hune : u ≠ e.«to» := fun hh => hnv (hh ▸ hu)
          rw [heq] at hdu hdv1
          have hdu2 : fUpd dp.1 e.«to» (some (du0 + (edgeWeight optimizeFor e : ℚ))) u
              = some du := hdu
          rw [fUpd_ne _ _ _ _ hune, hdu0] at hdu2
          have h3 : du0 = du := Option.some.inj hdu2
          have hdv2 : fUpd dp.1 e.«to» (some (du0 + (edgeWeight optimizeFor e : ℚ))) e.«to»
              = some dv1 := hdv1
          rw [fUpd_self] at hdv2
          have h4 : du0 + (edgeWeight optimizeFor e : ℚ) = dv1 := Option.some.inj hdv2
          rw [← h4, h3] at hle
          exact hle
      · exact ih _ e he' hev du dv hdu hdv

/-! ## The Dijkstra loop invariant -/

/-- The node `u` has been fully relaxed: every outgoing edge whose target is
still unvisited satisfies the triangle bound. -/
def RelaxedAtD (g : Graph) (optimizeFor : Mode) (dist : String → Option (WithTop ℚ))
    (vis : List String) (u : String) : Prop :=
  ∀ e ∈ getEdges g u, e.«to» ∉ vis →
    ∀ du dv : WithTop ℚ, dist u = some du → dist e.«to» = some dv →
      dv ≤ du + (edgeWeight optimizeFor e : ℚ)

/-- Structural invariant of the main loop state, independent of the sign of
the edge weights, phrased over the four state components. -/
structure BaseInv (g : Graph) (mode : Mode) (s : String)
    (dist : String → Option (WithTop ℚ)) (prev : String → Option (Option String))
    (vis unvis : List String) : Prop where
  dist_dom : ∀ x, (dist x).isSome ↔ x ∈ nodeKeys g
  prev_dom : ∀ x, (prev x).isSome ↔ x ∈ nodeKeys g
  vis_sub : ∀ x ∈ vis, x ∈ nodeKeys g
  unvis_sub : ∀ x ∈ unvis, x ∈ nodeKeys g
  cover : ∀ x ∈ nodeKeys g, x ∈ vis ∨ x ∈ unvis
  disj : ∀ x ∈ vis, x ∉ unvis
  unvis_nodup : unvis.Nodup
  count : vis.length + unvis.length = (nodeKeys g).length
  s_vis : vis ≠ [] → s ∈ vis
  vis_fin : ∀ u ∈ vis, ∃ q : ℚ, dist u = some (q : WithTop ℚ)
  fin_prev : ∀ v, v ≠ s → ∀ q : ℚ, dist v = some (q : WithTop ℚ) →
      ∃ u, prev v = some (some u)
  prev_conn : ∀ v u, prev v = some (some u) →
      u ∈ vis ∧ ∃ e ∈ getEdges g u, e.«to» = v ∧
        ∃ du : WithTop ℚ, dist u = some du ∧
          dist v = some (du + (edgeWeight mode e : ℚ))
  prev_reach : ∀ v ∈ vis, ∃ p, PrevChain prev v p ∧
      (∀ x ∈ p, x ∈ vis) ∧ p.length ≤ vis.length ∧ p.head? = some s

/-- Every already-visited node is fully relaxed. -/
def AllRelaxed (g : Graph) (mode : Mode) (dist : String → Option (WithTop ℚ))
    (vis : List String) : Prop :=
  ∀ u ∈ vis, RelaxedAtD g mode dist vis u

/-- Optimality invariant: finite labels are achievable chain weights, and
labels of visited nodes are lower bounds on every chain weight. -/
structure OptInv (g : Graph) (mode : Mode) (s : String)
    (dist : String → Option (WithTop ℚ)) (vis : List String) : Prop where
  achieve : ∀ v (q : ℚ), dist v = some (q : WithTop ℚ) →
      ∃ es, EdgeChain g s es v ∧ chainWeight mode es = q
  vis_min : ∀ u ∈ vis, ∀ q : ℚ, dist u = some (q : WithTop ℚ) →
      ∀ es, EdgeChain g s es u → q ≤ chainWeight mode es
  dist_s : dist s = some ((0 : ℚ) : WithTop ℚ)

/-- Any chain from inside a vertex set to outside it crosses the boundary. -/
theorem chain_split_crossing {g : Graph} {V : List String} {a b : String}
    {es : List GraphEdge} (h : EdgeChain g a es b) (ha : a ∈ V) (hb : b ∉ V) :
    ∃ es1 e es2 x, es = es1 ++ e :: es2 ∧ EdgeChain g a es1 x ∧ x ∈ V ∧
      e ∈ getEdges g x ∧ e.«to» ∉ V ∧ EdgeChain g e.«to» es2 b := by
  revert ha hb
  induction h with
  | nil => intro ha hb; exact absurd ha hb
  | cons he hch ih =>
      intro ha hb
      rename_i a' c' e' es'
      by_cases hv : e'.«to» ∈ V
      · obtain ⟨es1, e, es2, x, heq, hch1, hx, hex, hev, hch2⟩ := ih hv hb
        exact ⟨e' :: es1, e, es2, x, by rw [heq, List.cons_append],
          EdgeChain.cons he hch1, hx, hex, hev, hch2⟩
      · exact ⟨[], e', es', a', rfl, EdgeChain.nil _, ha, he, hv, hch⟩

theorem PrevChain.congr {prev prev' : String → Option (Option String)} {c : String}
    {p : List String} (h : PrevChain prev c p) (hagree : ∀ x ∈ p, prev' x = prev x) :
    PrevChain prev' c p := by
  induction h with
  | root hr => exact PrevChain.root ((hagree _ (by simp)).trans hr)
  | step hc hch ih =>
      refine PrevChain.step ((hagree _ (by simp)).trans hc) (ih fun x hx => ?_)
      exact hagree x (by simp [hx])

theorem relaxedAtD_mono_vis {g : Graph} {mode : Mode}
    {dist : String → Option (WithTop ℚ)} {vis vis' : List String} {x : String}
    (hsub : ∀ y, y ∈ vis → y ∈ vis') (h : RelaxedAtD g mode dist vis x) :
    RelaxedAtD g mode dist vis' x :=
  fun e he hev du dv hdu hdv => h e he (fun hh => hev (hsub _ hh)) du dv hdu hdv

theorem select_baseInv {g : Graph} {mode : Mode} {s : String}
    {dist : String → Option (WithTop ℚ)} {prev : String → Option (Option String)}
    {vis unvis : List String}
    (hBI : BaseInv g mode s dist prev vis unvis) {u : String} {md : WithTop ℚ}
    (hsel : selectMin dist unvis = (some u, md)) (hmd : md ≠ ⊤) :
    BaseInv g mode s dist prev (u :: vis) (unvis.erase u) := by
  obtain ⟨hu_mem, hdu, hlt_top, hmin⟩ := selectMin_some dist unvis hsel
  obtain ⟨qu, hqu⟩ := WithTop.ne_top_iff_exists.mp hmd
  have hu_nvis : u ∉ vis := fun hh => hBI.disj u hh hu_mem
  have hu_K : u ∈ nodeKeys g := hBI.unvis_sub u hu_mem
  have hu_s : vis = [] → u = s := by
    intro hnil
    by_contra hne
    obtain ⟨w, hw⟩ := hBI.fin_prev u hne qu (by rw [hdu, ← hqu])
    have hmem := (hBI.prev_conn u w hw).1
    rw [hnil] at hmem
    simp at hmem
  refine ⟨hBI.dist_dom, hBI.prev_dom, ?_, ?_, ?_, ?_, ?_, ?_, ?_, ?_, hBI.fin_prev,
    ?_, ?_⟩
  · intro x hx
    rcases List.mem_cons.mp hx with rfl | hx'
    · exact hu_K
    · exact hBI.vis_sub x hx'
  · intro x hx
    exact hBI.unvis_sub x (List.mem_of_mem_erase hx)
  · intro x hx
    rcases hBI.cover x hx with hv | hv
    · exact Or.inl (List.mem_cons_of_mem _ hv)
    · by_cases hxu : x = u
      · exact Or.inl (hxu ▸ List.mem_cons_self _ _)
      · exact Or.inr ((List.mem_erase_of_ne hxu).mpr hv)
  · intro x hx
    rcases List.mem_cons.mp hx with rfl | hx'
    · rw [(hBI.unvis_nodup).mem_erase_iff]
      simp
    · intro hmem
      exact hBI.disj x hx' (List.erase_subset _ _ hmem)
  · exact hBI.unvis_nodup.erase u
  · have h1 : (unvis.erase u).length = unvis.length - 1 :=
      List.length_erase_of_mem hu_mem
    have h2 : 0 < unvis.length := List.length_pos_of_mem hu_mem
    have h3 := hBI.count
    simp only [List.length_cons, h1]
    omega
  · intro _
    by_cases hnil : vis = []
    · rw [← hu_s hnil]
      exact List.mem_cons_self _ _
    · exact List.mem_cons_of_mem _ (hBI.s_vis hnil)
  · intro x hx
    rcases List.mem_cons.mp hx with rfl | hx'
    · exact ⟨qu, by rw [hdu, ← hqu]⟩
    · exact hBI.vis_fin x hx'
  · intro v w hw
    obtain ⟨hwv, rest⟩ := hBI.prev_conn v w hw
    exact ⟨List.mem_cons_of_mem _ hwv, rest⟩
  · intro v hv
    rcases List.mem_cons.mp hv with rfl | hv'
    · have hpu_some : (prev v).isSome := (hBI.prev_dom v).mpr hu_K
      rcases Option.eq_none_or_eq_some (prev v) with hpu | ⟨pu, hpu⟩
      · rw [hpu] at hpu_some; simp at hpu_some
      · cases pu with
        | none =>
            have hvs : v = s := by
              by_contra hne
              obtain ⟨w, hw⟩ := hBI.fin_prev v hne qu (by rw [hdu, ← hqu])
              rw [hpu] at hw
              cases hw
            refine ⟨[v], PrevChain.root hpu, ?_, ?_, by rw [hvs]; rfl⟩
            · intro x hx
              simp only [List.mem_singleton] at hx
              exact hx ▸ List.mem_cons_self _ _
            · simp
        | some w =>
            obtain ⟨hwv, _⟩ := hBI.prev_conn v w hpu
            obtain ⟨p, hch, hmem, hlen, hhead⟩ := hBI.prev_reach w hwv
            refine ⟨p ++ [v], PrevChain.step hpu hch, ?_, ?_, ?_⟩
            · intro x hx
              rcases List.mem_append.mp hx with hx' | hx'
              · exact List.mem_cons_of_mem _ (hmem x hx')
              · simp only [List.mem_singleton] at hx'
                exact hx' ▸ List.mem_cons_self _ _
            · have hlp : (p ++ [v]).length = p.length + 1 := by simp
              rw [hlp]
              simp only [List.length_cons]
              omega
            · obtain ⟨b, L, hbL⟩ := List.exists_cons_of_ne_nil hch.ne_nil
              rw [hbL] at hhead ⊢
              simpa using hhead
    · obtain ⟨p, hch, hmem, hlen, hhead⟩ := hBI.prev_reach v hv'
      refine ⟨p, hch, fun x hx => List.mem_cons_of_mem _ (hmem x hx), ?_, hhead⟩
      simp only [List.length_cons]
      omega

theorem relaxStep_baseInv {g : Graph} {mode : Mode} {s : String} {vis unvis : List String}
    {u : String} {dp : (String → Option (WithTop ℚ)) × (String → Option (Option String))}
    (hBI : BaseInv g mode s dp.1 dp.2 vis unvis) (hu : u ∈ vis)
    {e : GraphEdge} (he : e ∈ getEdges g u) :
    BaseInv g mode s (relaxStep mode vis u dp e).1 (relaxStep mode vis u dp e).2
      vis unvis := by
  rcases relaxStep_cases mode vis u dp e with ⟨heq, _⟩ | ⟨hnv, du, dv, hdu, hdv, hlt, heq⟩
  · rw [heq]; exact hBI
  · rw [heq]
    dsimp only
    obtain ⟨qu, hqu⟩ := hBI.vis_fin u hu
    have hduq : du = (qu : WithTop ℚ) := by
      rw [hdu] at hqu; exact Option.some.inj hqu
    have hvK : e.«to» ∈ nodeKeys g := by
      have hs2 : (dp.1 e.«to»).isSome := by rw [hdv]; rfl
      exact (hBI.dist_dom e.«to»).mp hs2
    have huv : u ≠ e.«to» := fun hh => hnv (hh ▸ hu)
    refine ⟨?_, ?_, hBI.vis_sub, hBI.unvis_sub, hBI.cover, hBI.disj, hBI.unvis_nodup,
      hBI.count, hBI.s_vis, ?_, ?_, ?_, ?_⟩
    · intro x
      by_cases hx : x = e.«to»
      · subst hx
        rw [fUpd_self]
        simp only [Option.isSome_some, true_iff]
        exact hvK
      · rw [fUpd_ne _ _ _ _ hx]
        exact hBI.dist_dom x
    · intro x
      by_cases hx : x = e.«to»
      · subst hx
        rw [fUpd_self]
        simp only [Option.isSome_some, true_iff]
        exact hvK
      · rw [fUpd_ne _ _ _ _ hx]
        exact hBI.prev_dom x
    · intro x hx
      have hxv : x ≠ e.«to» := fun hh => hnv (hh ▸ hx)
      rw [fUpd_ne _ _ _ _ hxv]
      exact hBI.vis_fin x hx
    · intro x hxs q hq
      by_cases hx : x = e.«to»
      · subst hx
        exact ⟨u, by rw [fUpd_self]⟩
      · rw [fUpd_ne _ _ _ _ hx] at hq
        obtain ⟨w', hw'⟩ := hBI.fin_prev x hxs q hq
        exact ⟨w', by rw [fUpd_ne _ _ _ _ hx]; exact hw'⟩
    · intro v' w' hw'
      by_cases hx : v' = e.«to»
      · subst hx
        rw [fUpd_self] at hw'
        have hwu : some u = some w' := Option.some.inj hw'
        have hwu2 : u = w' := Option.some.inj hwu
        subst hwu2
        refine ⟨hu, e, he, rfl, du, ?_, ?_⟩
        · rw [fUpd_ne _ _ _ _ huv]; exact hdu
        · rw [fUpd_self]
      · rw [fUpd_ne _ _ _ _ hx] at hw'
        obtain ⟨hwvis, e', he', hev', du', hdu', hdv'⟩ := hBI.prev_conn v' w' hw'
        have hwv : w' ≠ e.«to» := fun hh => hnv (hh ▸ hwvis)
        refine ⟨hwvis, e', he', hev', du', ?_, ?_⟩
        · rw [fUpd_ne _ _ _ _ hwv]; exact hdu'
        · rw [fUpd_ne _ _ _ _ hx]; exact hdv'
    · intro v' hv'
      obtain ⟨p, hch, hmem, hlen, hhead⟩ := hBI.prev_reach v' hv'
      refine ⟨p, hch.congr fun x hx => ?_, hmem, hlen, hhead⟩
      have hxv : x ≠ e.«to» := fun hh => hnv (hh ▸ hmem x hx)
      exact fUpd_ne _ _ _ _ hxv

theorem relaxAll_baseInv {g : Graph} {mode : Mode} {s : String} {vis unvis : List String}
    {u : String} {dp : (String → Option (WithTop ℚ)) × (String → Option (Option String))}
    (hBI : BaseInv g mode s dp.1 dp.2 vis unvis) (hu : u ∈ vis) :
    BaseInv g mode s (relaxAll g mode vis u dp).1 (relaxAll g mode vis u dp).2
      vis unvis := by
  have main : ∀ es : List GraphEdge, (∀ e ∈ es, e ∈ getEdges g u) →
      ∀ dp0 : (String → Option (WithTop ℚ)) × (String → Option (Option String)),
      BaseInv g mode s dp0.1 dp0.2 vis unvis →
      BaseInv g mode s (es.foldl (relaxStep mode vis u) dp0).1
        (es.foldl (relaxStep mode vis u) dp0).2 vis unvis := by
    intro es
    induction es with
    | nil => intro _ dp0 h; exact h
    | cons e es ih =>
        intro hsub dp0 h
        rw [List.foldl_cons]
        exact ih (fun e' he' => hsub e' (List.mem_cons_of_mem _ he')) _
          (relaxStep_baseInv h hu (hsub e (List.mem_cons_self _ _)))
  exact main _ (fun e he => he) dp hBI

theorem relaxStep_optInv {g : Graph} {mode : Mode} {s : String} {vis unvis : List String}
    {u : String} {dp : (String → Option (WithTop ℚ)) × (String → Option (Option String))}
    (hBI : BaseInv g mode s dp.1 dp.2 vis unvis)
    (hOI : OptInv g mode s dp.1 vis) (hu : u ∈ vis) (hsv : s ∈ vis)
    {e : GraphEdge} (he : e ∈ getEdges g u) :
    OptInv g mode s (relaxStep mode vis u dp e).1 vis := by
  rcases relaxStep_cases mode vis u dp e with ⟨heq, _⟩ | ⟨hnv, du, dv, hdu, hdv, hlt, heq⟩
  · rw [heq]; exact hOI
  · rw [heq]
    dsimp only
    obtain ⟨qu, hqu⟩ := hBI.vis_fin u hu
    have hduq : du = (qu : WithTop ℚ) := by
      rw [hdu] at hqu; exact Option.some.inj hqu
    have huv : u ≠ e.«to» := fun hh => hnv (hh ▸ hu)
    have hsnv : s ≠ e.«to» := fun hh => hnv (hh ▸ hsv)
    refine ⟨?_, ?_, ?_⟩
    · intro x q hq
      by_cases hx : x = e.«to»
      · subst hx
        rw [fUpd_self] at hq
        have hval : ((qu + edgeWeight mode e : ℚ) : WithTop ℚ) = (q : WithTop ℚ) := by
          rw [WithTop.coe_add, ← hduq]
          exact Option.some.inj hq
        have hqeq : qu + edgeWeight mode e = q := WithTop.coe_inj.mp hval
        obtain ⟨es, hch, hW⟩ := hOI.achieve u qu hqu
        refine ⟨es ++ [e], hch.append_edge he, ?_⟩
        rw [chainWeight_append, hW]
        have h1 : chainWeight mode [e] = edgeWeight mode e := by
          simp [chainWeight]
        rw [h1]
        exact hqeq
      · rw [fUpd_ne _ _ _ _ hx] at hq
        exact hOI.achieve x q hq
    · intro x hx q hq es hch
      have hxv : x ≠ e.«to» := fun hh => hnv (hh ▸ hx)
      rw [fUpd_ne _ _ _ _ hxv] at hq
      exact hOI.vis_min x hx q hq es hch
    · rw [fUpd_ne _ _ _ _ hsnv]
      exact hOI.dist_s

theorem relaxAll_optInv {g : Graph} {mode : Mode} {s : String} {vis unvis : List String}
    {u : String} {dp : (String → Option (WithTop ℚ)) × (String → Option (Option String))}
    (hBI : BaseInv g mode s dp.1 dp.2 vis unvis)
    (hOI : OptInv g mode s dp.1 vis) (hu : u ∈ vis) (hsv : s ∈ vis) :
    OptInv g mode s (relaxAll g mode vis u dp).1 vis := by
  have main : ∀ es : List GraphEdge, (∀ e ∈ es, e ∈ getEdges g u) →
      ∀ dp0 : (String → Option (WithTop ℚ)) × (String → Option (Option String)),
      BaseInv g mode s dp0.1 dp0.2 vis unvis →
      OptInv g mode s dp0.1 vis →
      OptInv g mode s (es.foldl (relaxStep mode vis u) dp0).1 vis := by
    intro es
    induction es with
    | nil => intro _ dp0 _ h; exact h
    | cons e es ih =>
        intro hsub dp0 hb h
        rw [List.foldl_cons]
        exact ih (fun e' he' => hsub e' (List.mem_cons_of_mem _ he')) _
          (relaxStep_baseInv hb hu (hsub e (List.mem_cons_self _ _)))
          (relaxStep_optInv hb h hu hsv (hsub e (List.mem_cons_self _ _)))
  exact main _ (fun e he => he) dp hBI hOI

theorem select_optInv {g : Graph} {mode : Mode} {s : String}
    (hWF : WellFormed g) (hNN : NonnegWeights g mode)
    {dist : String → Option (WithTop ℚ)} {prev : String → Option (Option String)}
    {vis unvis : List String}
    (hBI : BaseInv g mode s dist prev vis unvis)
    (hAR : AllRelaxed g mode dist vis) (hOI : OptInv g mode s dist vis)
    {u : String} {md : WithTop ℚ}
    (hsel : selectMin dist unvis = (some u, md)) :
    OptInv g mode s dist (u :: vis) := by
  obtain ⟨hu_mem, hdu, hlt_top, hmin⟩ := selectMin_some dist unvis hsel
  refine ⟨hOI.achieve, ?_, hOI.dist_s⟩
  intro x hx q hq es hch
  rcases List.mem_cons.mp hx with rfl | hx'
  · have hmdq : md = (q : WithTop ℚ) := by
      rw [hdu] at hq; exact Option.some.inj hq
    by_cases hus : x = s
    · subst hus
      have h0 : ((0 : ℚ) : WithTop ℚ) = (q : WithTop ℚ) := by
        rw [hOI.dist_s] at hq
        exact Option.some.inj hq
      have hq0 : q = 0 := (WithTop.coe_inj.mp h0).symm
      rw [hq0]
      exact chainWeight_nonneg hNN hch
    · have hvis_ne : vis ≠ [] := by
        intro hnil
        obtain ⟨w, hw⟩ := hBI.fin_prev x hus q hq
        have hmem := (hBI.prev_conn x w hw).1
        rw [hnil] at hmem
        simp at hmem
      have hs_vis : s ∈ vis := hBI.s_vis hvis_ne
      have hu_nvis : x ∉ vis := fun hh => hBI.disj x hh hu_mem
      obtain ⟨es1, e, es2, x', heqes, hch1, hx', hex, hev, hch2⟩ :=
        chain_split_crossing hch hs_vis hu_nvis
      obtain ⟨qx, hqx⟩ := hBI.vis_fin x' hx'
      have h1 : qx ≤ chainWeight mode es1 := hOI.vis_min x' hx' qx hqx es1 hch1
      have hyK : e.«to» ∈ nodeKeys g := getEdges_target_mem hWF hex
      have hysome : (dist e.«to»).isSome := (hBI.dist_dom _).mpr hyK
      obtain ⟨dy, hdy⟩ := Option.isSome_iff_exists.mp hysome
      have h2 : dy ≤ (qx : WithTop ℚ) + (edgeWeight mode e : ℚ) :=
        hAR x' hx' e hex hev _ dy hqx hdy
      have hy_unvis : e.«to» ∈ unvis := (hBI.cover _ hyK).resolve_left hev
      have h3 : md ≤ dy := hmin _ hy_unvis dy hdy
      have h4 : (q : WithTop ℚ) ≤ ((qx + edgeWeight mode e : ℚ) : WithTop ℚ) := by
        rw [← hmdq]
        calc md ≤ dy := h3
        _ ≤ (qx : WithTop ℚ) + (edgeWeight mode e : ℚ) := h2
        _ = ((qx + edgeWeight mode e : ℚ) : WithTop ℚ) := (WithTop.coe_add _ _).symm
      have h5 : q ≤ qx + edgeWeight mode e := WithTop.coe_le_coe.mp h4
      have h6 : 0 ≤ chainWeight mode es2 := chainWeight_nonneg hNN hch2
      rw [heqes, chainWeight_append, chainWeight_cons]
      linarith
  · exact hOI.vis_min x hx' q hq es hch

theorem relaxAll_allRelaxed {g : Graph} {mode : Mode} {vis : List String} {u : String}
    {dp : (String → Option (WithTop ℚ)) × (String → Option (Option String))}
    (hu : u ∈ vis)
    (hpre : ∀ x ∈ vis, x = u ∨ RelaxedAtD g mode dp.1 vis x) :
    AllRelaxed g mode (relaxAll g mode vis u dp).1 vis := by
  unfold relaxAll
  intro x hx
  rcases hpre x hx with rfl | hrel
  · intro e he hev du dv hdu hdv
    exact foldRelax_relaxed hu (getEdges g x) dp e he hev du dv hdu hdv
  · intro e he hev du dv hdu hdv
    rw [foldRelax_fst_vis _ _ hx] at hdu
    obtain ⟨dv0, hdv0, hle⟩ := foldRelax_mono _ _ hdv
    exact le_trans hle (hrel e he hev du dv0 hdu hdv0)

/-- Everything the main loop guarantees about its final state: the structural
invariant, relaxedness of every visited node except possibly `t` (reaching
`t` breaks out before relaxing it), no finite unvisited label unless the
loop broke at `t`, and (for well-formed nonnegative graphs) optimality. -/
def LoopPost (g : Graph) (mode : Mode) (s t : String) (st' : DState) : Prop :=
  BaseInv g mode s st'.distances st'.previous st'.visited st'.unvisited ∧
  (∀ x ∈ st'.visited, x = t ∨ RelaxedAtD g mode st'.distances st'.visited x) ∧
  (t ∉ st'.visited → ∀ x ∈ st'.unvisited, ∀ q : ℚ,
    st'.distances x ≠ some (q : WithTop ℚ)) ∧
  (WellFormed g → NonnegWeights g mode → OptInv g mode s st'.distances st'.visited)

theorem dijkstraGo_succ (g : Graph) (mode : Mode) (t : String) (fuel : Nat)
    (st : DState) :
    dijkstraGo g mode t (fuel + 1) st =
      if st.unvisited.isEmpty then st
      else
        match selectMin st.distances st.unvisited with
        | (none, _) => st
        | (some u, md) =>
            if md = ⊤ then st
            else if u = t then
              ⟨st.distances, st.previous, u :: st.visited, st.unvisited.erase u⟩
            else
              dijkstraGo g mode t fuel
                ⟨(relaxAll g mode (u :: st.visited) u (st.distances, st.previous)).1,
                  (relaxAll g mode (u :: st.visited) u (st.distances, st.previous)).2,
                  u :: st.visited, st.unvisited.erase u⟩ := rfl

theorem dijkstraGo_spec (g : Graph) (mode : Mode) (s t : String) :
    ∀ (fuel : Nat) (st : DState), st.unvisited.length = fuel →
    BaseInv g mode s st.distances st.previous st.visited st.unvisited →
    AllRelaxed g mode st.distances st.visited →
    (WellFormed g → NonnegWeights g mode → OptInv g mode s st.distances st.visited) →
    LoopPost g mode s t (dijkstraGo g mode t fuel st) := by
  intro fuel
  induction fuel with
  | zero =>
      intro st hlen hBI hAR hOI
      have h0 : dijkstraGo g mode t 0 st = st := rfl
      rw [h0]
      refine ⟨hBI, fun x hx => Or.inr (hAR x hx), ?_, hOI⟩
      intro _ x hx
      have hnil : st.unvisited = [] := List.eq_nil_of_length_eq_zero hlen
      rw [hnil] at hx
      simp at hx
  | succ fuel ih =>
      intro st hlen hBI hAR hOI
      rw [dijkstraGo_succ]
      by_cases hemp : st.unvisited.isEmpty
      · rw [if_pos hemp]
        refine ⟨hBI, fun x hx => Or.inr (hAR x hx), ?_, hOI⟩
        intro _ x hx
        rw [List.isEmpty_iff] at hemp
        rw [hemp] at hx
        simp at hx
      · rw [if_neg hemp]
        rcases hsel : selectMin st.distances st.unvisited with ⟨cn, md⟩
        cases cn with
        | none =>
            simp only []
            refine ⟨hBI, fun x hx => Or.inr (hAR x hx), ?_, hOI⟩
            intro _ x hx q hq
            have hsel1 : (selectMin st.distances st.unvisited).1 = none := by rw [hsel]
            rcases selectMin_none st.distances st.unvisited hsel1 x hx with h | h
            · rw [h] at hq; cases hq
            · rw [h] at hq
              have : (⊤ : WithTop ℚ) = (q : WithTop ℚ) := Option.some.inj hq
              exact WithTop.coe_ne_top this.symm
        | some u =>
            simp only []
            obtain ⟨hu_mem, hdu, hlt_top, hmin⟩ := selectMin_some _ _ hsel
            by_cases hmd : md = ⊤
            · exact absurd hlt_top (by rw [hmd]; exact lt_irrefl _)
            · rw [if_neg hmd]
              have hBI1 := select_baseInv hBI hsel hmd
              have hu_cons : u ∈ u :: st.visited := List.mem_cons_self _ _
              have hpre1 : ∀ x ∈ u :: st.visited,
                  x = u ∨ RelaxedAtD g mode st.distances (u :: st.visited) x := by
                intro x hx
                rcases List.mem_cons.mp hx with rfl | hx'
                · exact Or.inl rfl
                · exact Or.inr (relaxedAtD_mono_vis
                    (fun y hy => List.mem_cons_of_mem _ hy) (hAR x hx'))
              by_cases hut : u = t
              · rw [if_pos hut]
                refine ⟨hBI1, ?_, ?_, ?_⟩
                · intro x hx
                  rcases hpre1 x hx with rfl | hrel
                  · exact Or.inl hut
                  · exact Or.inr hrel
                · intro hnt
                  exact absurd (hut ▸ List.mem_cons_self u st.visited) hnt
                · intro hwf hnn
                  exact select_optInv hwf hnn hBI hAR (hOI hwf hnn) hsel
              · rw [if_neg hut]
                have hlen2 :
                    (st.unvisited.erase u).length = fuel := by
                  rw [List.length_erase_of_mem hu_mem]
                  omega
                have hBI2 := @relaxAll_baseInv g mode s _ _ u
                  (st.distances, st.previous) hBI1 hu_cons
                have hAR2 := @relaxAll_allRelaxed g mode _ u
                  (st.distances, st.previous) hu_cons hpre1
                have hOI2 : WellFormed g → NonnegWeights g mode →
                    OptInv g mode s
                      (relaxAll g mode (u :: st.visited) u (st.distances, st.previous)).1
                      (u :: st.visited) := by
                  intro hwf hnn
                  have hsv : s ∈ u :: st.visited := hBI1.s_vis (by simp)
                  exact @relaxAll_optInv g mode s _ _ u (st.distances, st.previous)
                    hBI1 (select_optInv hwf hnn hBI hAR (hOI hwf hnn) hsel) hu_cons hsv
                exact ih _ hlen2 hBI2 hAR2 hOI2

/-! ## The initial state of a run -/

theorem init_baseInv (g : Graph) (mode : Mode) (s : String) (hs : s ∈ nodeKeys g)
    (hnd : (nodeKeys g).Nodup) :
    BaseInv g mode s
      (fUpd (fun x => if x ∈ nodeKeys g then some (⊤ : WithTop ℚ) else none) s (some 0))
      (fun x => if x ∈ nodeKeys g then some none else none) [] (nodeKeys g) := by
  refine ⟨?_, ?_, ?_, fun x hx => hx, fun x hx => Or.inr hx, ?_, hnd, by simp,
    fun h => absurd rfl h, ?_, ?_, ?_, ?_⟩
  · intro x
    by_cases hx : x = s
    · subst hx
      rw [fUpd_self]
      exact iff_of_true rfl hs
    · rw [fUpd_ne _ _ _ _ hx]
      by_cases hk : x ∈ nodeKeys g
      · rw [if_pos hk]; exact iff_of_true rfl hk
      · rw [if_neg hk]; simp [hk]
  · intro x
    by_cases hk : x ∈ nodeKeys g
    · rw [if_pos hk]; exact iff_of_true rfl hk
    · rw [if_neg hk]; simp [hk]
  · intro x hx; simp at hx
  · intro x hx; simp at hx
  · intro u hu; simp at hu
  · intro v hv q hq
    rw [fUpd_ne _ _ _ _ hv] at hq
    by_cases hk : v ∈ nodeKeys g
    · rw [if_pos hk] at hq
      have h2 : (⊤ : WithTop ℚ) = (q : WithTop ℚ) := Option.some.inj hq
      exact absurd h2.symm WithTop.coe_ne_top
    · rw [if_neg hk] at hq
      cases hq
  · intro v u h
    by_cases hk : v ∈ nodeKeys g
    · rw [if_pos hk] at h
      simp at h
    · rw [if_neg hk] at h
      cases h
  · intro v hv; simp at hv

theorem init_allRelaxed (g : Graph) (mode : Mode)
    (dist : String → Option (WithTop ℚ)) :
    AllRelaxed g mode dist [] := by
  intro u hu; simp at hu

theorem init_optInv (g : Graph) (mode : Mode) (s : String) (hs : s ∈ nodeKeys g) :
    OptInv g mode s
      (fUpd (fun x => if x ∈ nodeKeys g then some (⊤ : WithTop ℚ) else none) s (some 0))
      [] := by
  refine ⟨?_, ?_, ?_⟩
  · intro v q hq
    by_cases hv : v = s
    · subst hv
      rw [fUpd_self] at hq
      have h2 : (0 : WithTop ℚ) = (q : WithTop ℚ) := Option.some.inj hq
      rw [← WithTop.coe_zero] at h2
      have h3 : (0 : ℚ) = q := WithTop.coe_inj.mp h2
      exact ⟨[], EdgeChain.nil _, by rw [chainWeight_nil, h3]⟩
    · rw [fUpd_ne _ _ _ _ hv] at hq
      by_cases hk : v ∈ nodeKeys g
      · rw [if_pos hk] at hq
        have h2 : (⊤ : WithTop ℚ) = (q : WithTop ℚ) := Option.some.inj hq
        exact absurd h2.symm WithTop.coe_ne_top
      · rw [if_neg hk] at hq
        cases hq
  · intro u hu; simp at hu
  · rw [fUpd_self, WithTop.coe_zero]

/-! ## Path reconstruction -/

theorem buildPathAux_none (prev : String → Option (Option String)) (fuel : Nat)
    (acc : List String) : buildPathAux prev fuel none acc = acc := by
  cases fuel <;> rfl

theorem buildPathAux_eq {prev : String → Option (Option String)} {c : String}
    {p : List String} (h : PrevChain prev c p) :
    ∀ (acc : List String) (fuel : Nat), p.length ≤ fuel →
      buildPathAux prev fuel (some c) acc = p ++ acc := by
  induction h with
  | root hr =>
      intro acc fuel hfuel
      cases fuel with
      | zero => simp at hfuel
      | succ n =>
          simp only [buildPathAux, hr, buildPathAux_none]
          rfl
  | step hc hch ih =>
      intro acc fuel hfuel
      cases fuel with
      | zero => simp at hfuel
      | succ n =>
          simp only [buildPathAux, hc]
          rw [ih (_ :: acc) n (by simp at hfuel; omega)]
          simp

theorem prevChain_edgeChain {g : Graph} {mode : Mode} {s : String}
    {dist : String → Option (WithTop ℚ)} {prev : String → Option (Option String)}
    {vis unvis : List String}
    (hBI : BaseInv g mode s dist prev vis unvis) {c : String} {p : List String}
    (h : PrevChain prev c p) :
    ∃ r es, p.head? = some r ∧ prev r = some none ∧ EdgeChain g r es c ∧
      chainNodes r es = p ∧
      ∀ dr : WithTop ℚ, dist r = some dr →
        dist c = some (dr + (chainWeight mode es : ℚ)) := by
  induction h with
  | root hr =>
      refine ⟨_, [], rfl, hr, EdgeChain.nil _, rfl, fun dr hdr => ?_⟩
      rw [hdr, chainWeight_nil]
      congr 1
      rw [WithTop.coe_zero, add_zero]
  | step hc hch ih =>
      obtain ⟨r, es, hhead, hroot, hchain, hnodes, hdist⟩ := ih
      obtain ⟨hwv, e, he, hev, du, hdu, hdv⟩ := hBI.prev_conn _ _ hc
      refine ⟨r, es ++ [e], ?_, hroot, ?_, ?_, ?_⟩
      · obtain ⟨b, L, hbL⟩ := List.exists_cons_of_ne_nil hch.ne_nil
        rw [hbL] at hhead ⊢
        simpa using hhead
      · exact hev ▸ hchain.append_edge he
      · rw [chainNodes_append_edge, hnodes, hev]
      · intro dr hdr
        have h1 := hdist dr hdr
        rw [h1] at hdu
        have h2 : du = dr + (chainWeight mode es : ℚ) := (Option.some.inj hdu).symm
        rw [hdv, h2]
        congr 1
        have h3 : chainWeight mode (es ++ [e]) =
            chainWeight mode es + edgeWeight mode e := by
          rw [chainWeight_append, chainWeight_cons, chainWeight_nil, add_zero]
        rw [h3, WithTop.coe_add, add_assoc]

/-- Following `previous` from any node of the key set reaches the root marker
within `|visited| + 1` steps, through keys only. -/
theorem baseInv_prevChain {g : Graph} {mode : Mode} {s : String}
    {dist : String → Option (WithTop ℚ)} {prev : String → Option (Option String)}
    {vis unvis : List String}
    (hBI : BaseInv g mode s dist prev vis unvis) {t : String} (ht : t ∈ nodeKeys g) :
    ∃ p, PrevChain prev t p ∧ p.length ≤ vis.length + 1 ∧ ∀ x ∈ p, x ∈ nodeKeys g := by
  have hsome : (prev t).isSome := (hBI.prev_dom t).mpr ht
  rcases Option.eq_none_or_eq_some (prev t) with h | ⟨pt, h⟩
  · rw [h] at hsome; simp at hsome
  · cases pt with
    | none =>
        refine ⟨[t], PrevChain.root h, by simp, ?_⟩
        intro x hx
        simp only [List.mem_singleton] at hx
        exact hx ▸ ht
    | some w =>
        obtain ⟨hwv, _⟩ := hBI.prev_conn t w h
        obtain ⟨p, hch, hmem, hlen, _⟩ := hBI.prev_reach w hwv
        refine ⟨p ++ [t], PrevChain.step h hch, ?_, ?_⟩
        · have hlp : (p ++ [t]).length = p.length + 1 := by simp
          rw [hlp]
          omega
        · intro x hx
          rcases List.mem_append.mp hx with hx' | hx'
          · exact hBI.vis_sub x (hmem x hx')
          · simp only [List.mem_singleton] at hx'
            exact hx' ▸ ht

/-! ## The full run of `findShortestPath` -/

/-- The state after the main loop of one `findShortestPath(s, t, mode)` run. -/
def dijkstraFinal (g : Graph) (mode : Mode) (s t : String) : DState :=
  dijkstraGo g mode t (nodeKeys g).length
    ⟨fUpd (fun x => if x ∈ nodeKeys g then some (⊤ : WithTop ℚ) else none) s (some 0),
      fun x => if x ∈ nodeKeys g then some none else none, [], nodeKeys g⟩

/-- The reconstructed node sequence of the run. -/
def dijkstraPath (g : Graph) (mode : Mode) (s t : String) : List String :=
  buildPathAux (dijkstraFinal g mode s t).previous ((nodeKeys g).length + 1) (some t) []

theorem findShortestPath_eq (g : Graph) (s t : String) (mode : Mode)
    (hst : hasNode g s ∧ hasNode g t) :
    findShortestPath g s t mode =
      if (dijkstraPath g mode s t).head? = some s
      then some (buildRouteResult g (dijkstraPath g mode s t)) else none := by
  unfold findShortestPath dijkstraPath dijkstraFinal
  rw [if_pos hst]

theorem findShortestPath_absent (g : Graph) (s t : String) (mode : Mode)
    (h : ¬(hasNode g s ∧ hasNode g t)) : findShortestPath g s t mode = none := by
  unfold findShortestPath
  rw [if_neg h]

theorem buildRouteResult_path (g : Graph) (p : List String) :
    (buildRouteResult g p).path = p := rfl

theorem final_post (g : Graph) (mode : Mode) (s t : String) (hs : s ∈ nodeKeys g)
    (hnd : (nodeKeys g).Nodup) : LoopPost g mode s t (dijkstraFinal g mode s t) := by
  unfold dijkstraFinal
  exact dijkstraGo_spec g mode s t (nodeKeys g).length _ rfl
    (init_baseInv g mode s hs hnd) (init_allRelaxed g mode _)
    (fun _ _ => init_optInv g mode s hs)

/-- Master lemma for a successful `findShortestPath` call: the returned
result is built from a path that is a predecessor chain from `s` to `t`
through the graph, and for well-formed nonnegative graphs its weight is
minimal among all chains from `s` to `t`. -/
theorem findShortestPath_some_spec {g : Graph} {mode : Mode} {s t : String}
    (hnd : (nodeKeys g).Nodup) {r : RouteResult}
    (hr : findShortestPath g s t mode = some r) :
    ∃ p, r = buildRouteResult g p ∧ r.path = p ∧ p.head? = some s ∧
      p.getLast? = some t ∧ (∀ x ∈ p, x ∈ nodeKeys g) ∧
      ∃ es, EdgeChain g s es t ∧ chainNodes s es = p ∧
        (WellFormed g → NonnegWeights g mode →
          ∀ es', EdgeChain g s es' t → chainWeight mode es ≤ chainWeight mode es') := by
  by_cases hst : hasNode g s ∧ hasNode g t
  case neg => rw [findShortestPath_absent g s t mode hst] at hr; cases hr
  have hs : s ∈ nodeKeys g := (hasNode_iff_mem_nodeKeys g s).mp hst.1
  have ht : t ∈ nodeKeys g := (hasNode_iff_mem_nodeKeys g t).mp hst.2
  rw [findShortestPath_eq g s t mode hst] at hr
  by_cases hhead : (dijkstraPath g mode s t).head? = some s
  case neg => rw [if_neg hhead] at hr; cases hr
  rw [if_pos hhead] at hr
  obtain ⟨hBI, hB, hC, hD⟩ := final_post g mode s t hs hnd
  obtain ⟨p, hch, hlen, hmemK⟩ := baseInv_prevChain hBI ht
  have hvk : (dijkstraFinal g mode s t).visited.length ≤ (nodeKeys g).length := by
    have hc := hBI.count; omega
  have hpeq : dijkstraPath g mode s t = p := by
    unfold dijkstraPath
    rw [buildPathAux_eq hch [] ((nodeKeys g).length + 1) (by omega), List.append_nil]
  rw [hpeq] at hhead hr
  obtain ⟨rroot, es, hhead2, hroot, hchain, hnodes, hdist⟩ := prevChain_edgeChain hBI hch
  have hrs : s = rroot := by
    rw [hhead] at hhead2
    exact Option.some.inj hhead2
  subst hrs
  refine ⟨p, (Option.some.inj hr).symm, ?_, hhead, hch.getLast, hmemK,
    es, hchain, hnodes, ?_⟩
  · rw [(Option.some.inj hr).symm]
    exact buildRouteResult_path g p
  · intro hwf hnn es' hch'
    have hOI := hD hwf hnn
    have htvis : t ∈ (dijkstraFinal g mode s t).visited := by
      by_contra htn
      have h1 := hdist _ hOI.dist_s
      have htunvis : t ∈ (dijkstraFinal g mode s t).unvisited :=
        (hBI.cover t ht).resolve_left htn
      refine hC htn t htunvis (0 + chainWeight mode es) ?_
      rw [h1, WithTop.coe_add]
    have hdt : (dijkstraFinal g mode s t).distances t =
        some ((chainWeight mode es : ℚ) : WithTop ℚ) := by
      have h1 := hdist _ hOI.dist_s
      rw [h1, ← WithTop.coe_add, zero_add]
    exact hOI.vis_min t htvis _ hdt es' hch'

/-- Completeness: if any chain connects `s` to `t` in a well-formed graph
with nonnegative weights, the call succeeds. -/
theorem findShortestPath_complete (g : Graph) (mode : Mode) (s t : String)
    (hnd : (nodeKeys g).Nodup) (hWF : WellFormed g) (hNN : NonnegWeights g mode)
    (hs : s ∈ nodeKeys g) (ht : t ∈ nodeKeys g)
    {es0 : List GraphEdge} (hch0 : EdgeChain g s es0 t) :
    ∃ r, findShortestPath g s t mode = some r := by
  have hst : hasNode g s ∧ hasNode g t :=
    ⟨(hasNode_iff_mem_nodeKeys g s).mpr hs, (hasNode_iff_mem_nodeKeys g t).mpr ht⟩
  rw [findShortestPath_eq g s t mode hst]
  obtain ⟨hBI, hB, hC, hD⟩ := final_post g mode s t hs hnd
  have hOI := hD hWF hNN
  have htvis : t ∈ (dijkstraFinal g mode s t).visited := by
    by_contra htn
    have hsvis : s ∈ (dijkstraFinal g mode s t).visited := by
      by_contra hsn
      have hsunvis : s ∈ (dijkstraFinal g mode s t).unvisited :=
        (hBI.cover s hs).resolve_left hsn
      exact hC htn s hsunvis 0 hOI.dist_s
    have hstep : ∀ a (es : List GraphEdge) b, EdgeChain g a es b →
        a ∈ (dijkstraFinal g mode s t).visited →
        b ∈ (dijkstraFinal g mode s t).visited := by
      intro a es b hchn
      induction hchn with
      | nil => exact id
      | cons he hsub ih =>
          intro ha
          rcases hB _ ha with rfl | hrel
          · exact absurd ha htn
          · apply ih
            by_contra hyn
            rename_i a' c' e' es'
            have hyK : e'.«to» ∈ nodeKeys g := getEdges_target_mem hWF he
            have hysome := (hBI.dist_dom _).mpr hyK
            obtain ⟨dy, hdy⟩ := Option.isSome_iff_exists.mp hysome
            obtain ⟨qa, hqa⟩ := hBI.vis_fin _ ha
            have hle := hrel _ he hyn _ dy hqa hdy
            have hdylt : dy < ⊤ := lt_of_le_of_lt hle
              (by rw [← WithTop.coe_add]; exact WithTop.coe_lt_top _)
            obtain ⟨qy, hqy⟩ := WithTop.ne_top_iff_exists.mp (ne_of_lt hdylt)
            have hyunvis : e'.«to» ∈ (dijkstraFinal g mode s t).unvisited :=
              (hBI.cover _ hyK).resolve_left hyn
            exact hC htn _ hyunvis qy (by rw [hdy, ← hqy])
    exact absurd (hstep s es0 t hch0 hsvis) htn
  obtain ⟨p, hch, hmem, hlen, hhead⟩ := hBI.prev_reach t htvis
  have hvk : (dijkstraFinal g mode s t).visited.length ≤ (nodeKeys g).length := by
    have hc := hBI.count; omega
  have hpeq : dijkstraPath g mode s t = p := by
    unfold dijkstraPath
    rw [buildPathAux_eq hch [] ((nodeKeys g).length + 1) (by omega), List.append_nil]
  refine ⟨buildRouteResult g (dijkstraPath g mode s t), ?_⟩
  rw [if_pos (by rw [hpeq]; exact hhead)]

/-! ## Exact (unrounded) per-edge sums over a path -/

/-- Exact sum of `f` over the edges found for the consecutive pairs of a
path (a missing pair edge contributes nothing, as in the source loop). -/
def sumBy (g : Graph) (f : GraphEdge → ℚ) (path : List String) : ℚ :=
  ((path.zip path.tail).map fun pr =>
    match stepEdge g pr.1 pr.2 with
    | some e => f e
    | none => 0).sum

theorem routeTotals_spec (g : Graph) (path : List String) :
    routeTotals g path = (sumBy g (fun e => e.distance) path,
      sumBy g (fun e => e.time * e.trafficFactor) path,
      sumBy g (fun e => e.cost + e.tollCost) path) := by
  unfold routeTotals sumBy
  have main : ∀ (l : List (String × String)) (a b c : ℚ),
      l.foldl (fun acc pr =>
        match stepEdge g pr.1 pr.2 with
        | some e =>
            (acc.1 + e.distance, acc.2.1 + e.time * e.trafficFactor,
              acc.2.2 + (e.cost + e.tollCost))
        | none => acc) (a, b, c) =
      (a + (l.map fun pr => match stepEdge g pr.1 pr.2 with
              | some e => e.distance | none => 0).sum,
        b + (l.map fun pr => match stepEdge g pr.1 pr.2 with
              | some e => e.time * e.trafficFactor | none => 0).sum,
        c + (l.map fun pr => match stepEdge g pr.1 pr.2 with
              | some e => e.cost + e.tollCost | none => 0).sum) := by
    intro l
    induction l with
    | nil => intro a b c; simp
    | cons pr l ih =>
        intro a b c
        rw [List.foldl_cons, List.map_cons, List.map_cons, List.map_cons]
        cases hse : stepEdge g pr.1 pr.2 with
        | none =>
            simp only [hse, List.sum_cons]
            rw [ih]
            simp
        | some e =>
            simp only [hse, List.sum_cons]
            rw [ih]
            refine congrArg₂ Prod.mk ?_ (congrArg₂ Prod.mk ?_ ?_) <;> ring
  rw [main]
  simp

theorem chainNodes_zip_connected {g : Graph} {a c : String} {es : List GraphEdge}
    (h : EdgeChain g a es c) :
    ∀ pr ∈ (chainNodes a es).zip (chainNodes a es).tail,
      ∃ e ∈ getEdges g pr.1, e.«to» = pr.2 := by
  induction h with
  | nil => intro pr hpr; simp [chainNodes] at hpr
  | cons he hch ih =>
      rename_i a' c' e' es'
      intro pr hpr
      have hne : chainNodes a' (e' :: es') = a' :: chainNodes e'.«to» es' := by
        simp [chainNodes]
      rw [hne] at hpr
      have hcn : chainNodes e'.«to» es' = e'.«to» :: es'.map (fun e => e.«to») := rfl
      rw [hcn] at hpr
      simp only [List.tail_cons, List.zip_cons_cons, List.mem_cons] at hpr
      rcases hpr with rfl | hpr
      · exact ⟨e', he, rfl⟩
      · exact ih pr (by rw [hcn]; exact hpr)

/-! ## The degenerate run with `startId = endId` -/

theorem scanMin_keep_unique {dist : String → Option (WithTop ℚ)} {u : String}
    {du : WithTop ℚ} (hdu : dist u = some du) :
    ∀ l, (∀ x ∈ l, x = u ∨ dist x = some ⊤) →
      scanMin dist l (some u, du) = (some u, du) := by
  intro l
  induction l with
  | nil => intro _; rfl
  | cons x xs ih =>
      intro hall
      rcases hall x (List.mem_cons_self _ _) with rfl | hx
      · simp only [scanMin, hdu]
        rw [if_neg (lt_irrefl du)]
        exact ih fun y hy => hall y (List.mem_cons_of_mem _ hy)
      · simp only [scanMin, hx]
        rw [if_neg not_top_lt]
        exact ih fun y hy => hall y (List.mem_cons_of_mem _ hy)

theorem selectMin_unique {dist : String → Option (WithTop ℚ)} {u : String}
    {du : WithTop ℚ} (hdu : dist u = some du) (hfin : du < ⊤) :
    ∀ l, u ∈ l → (∀ x ∈ l, x = u ∨ dist x = some ⊤) →
      selectMin dist l = (some u, du) := by
  intro l
  induction l with
  | nil => intro hu; simp at hu
  | cons x xs ih =>
      intro hu hall
      rcases hall x (List.mem_cons_self _ _) with rfl | hx
      · unfold selectMin
        simp only [scanMin, hdu]
        rw [if_pos hfin]
        exact scanMin_keep_unique hdu xs fun y hy => hall y (List.mem_cons_of_mem _ hy)
      · have hux : u ≠ x := by
          intro hh
          rw [hh, hx] at hdu
          rw [Option.some.inj hdu] at hfin
          exact lt_irrefl _ hfin
        have hu' : u ∈ xs := by
          rcases List.mem_cons.mp hu with rfl | h
          · exact absurd rfl hux
          · exact h
        unfold selectMin at ih ⊢
        simp only [scanMin, hx]
        rw [if_neg not_top_lt]
        exact ih hu' fun y hy => hall y (List.mem_cons_of_mem _ hy)

theorem roundJS_zero : roundJS 0 = 0 := by
  unfold roundJS
  norm_num

theorem roundJS_eq_round (q : ℚ) : roundJS q = round q := by
  rw [round_eq]
  rfl

theorem findShortestPath_self (g : Graph) (mode : Mode) (A : String)
    (hA : A ∈ nodeKeys g) :
    findShortestPath g A A mode = some (buildRouteResult g [A]) := by
  have hAs : hasNode g A := (hasNode_iff_mem_nodeKeys g A).mpr hA
  rw [findShortestPath_eq g A A mode ⟨hAs, hAs⟩]
  have hdA : fUpd (fun x => if x ∈ nodeKeys g then some (⊤ : WithTop ℚ) else none)
      A (some 0) A = some 0 := fUpd_self _ _ _
  have hfin0 : (0 : WithTop ℚ) < ⊤ := by
    rw [← WithTop.coe_zero]
    exact WithTop.coe_lt_top 0
  have hall : ∀ x ∈ nodeKeys g, x = A ∨
      fUpd (fun x => if x ∈ nodeKeys g then some (⊤ : WithTop ℚ) else none)
        A (some 0) x = some ⊤ := by
    intro x hx
    by_cases hxA : x = A
    · exact Or.inl hxA
    · right
      rw [fUpd_ne _ _ _ _ hxA, if_pos hx]
  have hsel : selectMin
      (fUpd (fun x => if x ∈ nodeKeys g then some (⊤ : WithTop ℚ) else none) A (some 0))
      (nodeKeys g) = (some A, (0 : WithTop ℚ)) :=
    selectMin_unique hdA hfin0 (nodeKeys g) hA hall
  obtain ⟨n, hn⟩ := Nat.exists_eq_succ_of_ne_zero
    (Nat.pos_iff_ne_zero.mp (List.length_pos_of_mem hA))
  have hne : ¬((nodeKeys g).isEmpty = true) := by
    intro hh
    rw [List.isEmpty_iff] at hh
    rw [hh] at hA
    simp at hA
  have hfinal : dijkstraFinal g mode A A =
      ⟨fUpd (fun x => if x ∈ nodeKeys g then some (⊤ : WithTop ℚ) else none) A (some 0),
        fun x => if x ∈ nodeKeys g then some none else none,
        [A], (nodeKeys g).erase A⟩ := by
    unfold dijkstraFinal
    rw [hn, dijkstraGo_succ]
    dsimp only
    rw [if_neg hne, hsel]
    dsimp only
    rw [if_neg (by rw [← WithTop.coe_zero]; exact WithTop.coe_ne_top), if_pos rfl]
  have hprevA : (dijkstraFinal g mode A A).previous A = some none := by
    rw [hfinal]
    dsimp only
    rw [if_pos hA]
  have hpath : dijkstraPath g mode A A = [A] := by
    unfold dijkstraPath
    rw [buildPathAux_eq (PrevChain.root hprevA) [] ((nodeKeys g).length + 1) (by simp),
      List.append_nil]
  rw [hpath]
  simp

/-- C5: `findShortestPath(A, A, mode)` on any graph whose node set contains
`A` returns the one-element path `[A]` with all three totals zero. -/
theorem c5_self_query_zero (g : Graph) (mode : Mode) (A : String)
    (hA : A ∈ nodeKeys g) :
    ∃ r, findShortestPath g A A mode = some r ∧ r.path = [A] ∧
      r.totalDistance = 0 ∧ r.totalTime = 0 ∧ r.totalCost = 0 := by
  refine ⟨buildRouteResult g [A], findShortestPath_self g mode A hA, rfl, ?_, ?_, ?_⟩
  all_goals
    simp [buildRouteResult, show routeTotals g [A] = (0, 0, 0) from rfl, roundJS_zero]

/-- Witness for C5 on a concrete one-node graph. -/
theorem c5_self_query_zero_witness :
    ∃ r, findShortestPath (Graph.mk [("a", ⟨"a", 0, 0, "A", .city⟩)] [("a", [])])
        "a" "a" Mode.distance = some r ∧ r.path = ["a"] ∧
      r.totalDistance = 0 ∧ r.totalTime = 0 ∧ r.totalCost = 0 :=
  c5_self_query_zero (Graph.mk [("a", ⟨"a", 0, 0, "A", .city⟩)] [("a", [])])
    Mode.distance "a" (by decide)

/-- C6: when either endpoint id is missing from the node map the call
returns the same `null` sentinel as for unreachable targets (and, the model
being total, never throws). -/
theorem c6_unknown_ids_null (g : Graph) (mode : Mode) (s t : String)
    (h : s ∉ nodeKeys g ∨ t ∉ nodeKeys g) :
    findShortestPath g s t mode = none := by
  apply findShortestPath_absent
  intro ⟨hs, ht⟩
  rcases h with h | h
  · exact h ((hasNode_iff_mem_nodeKeys g s).mp hs)
  · exact h ((hasNode_iff_mem_nodeKeys g t).mp ht)

/-- Witness for C6: a missing start id on the seed network. -/
theorem c6_unknown_ids_null_witness :
    findShortestPath dijkstraRouter "nowhere" "mumbai" Mode.distance = none :=
  c6_unknown_ids_null dijkstraRouter Mode.distance "nowhere" "mumbai"
    (Or.inl (by decide))

/-- C1: for every graph satisfying the data-model invariants (unique keys,
edge targets in the node set, nonnegative weights under the selected mode)
and node ids `s`, `t` in the node set, a non-null result of
`findShortestPath` is a path from `s` to `t` of minimal total weight among
all chains from `s` to `t`, and if no chain exists the call returns `null`. -/
theorem c1_dijkstra_optimal (g : Graph) (mode : Mode) (s t : String)
    (hnd : (nodeKeys g).Nodup) (hWF : WellFormed g) (hNN : NonnegWeights g mode)
    (hs : s ∈ nodeKeys g) (ht : t ∈ nodeKeys g) :
    (∀ r, findShortestPath g s t mode = some r →
      ∃ es, EdgeChain g s es t ∧ r.path = chainNodes s es ∧
        ∀ es', EdgeChain g s es' t → chainWeight mode es ≤ chainWeight mode es') ∧
    ((¬∃ es, EdgeChain g s es t) → findShortestPath g s t mode = none) := by
  constructor
  · intro r hr
    obtain ⟨p, hrb, hrpath, _, _, _, es, hchain, hnodes, hmin⟩ :=
      findShortestPath_some_spec hnd hr
    exact ⟨es, hchain, by rw [hrpath, hnodes], hmin hWF hNN⟩
  · intro hne
    rcases hopt : findShortestPath g s t mode with _ | r
    · rfl
    · obtain ⟨p, _, _, _, _, _, es, hchain, _, _⟩ := findShortestPath_some_spec hnd hopt
      exact absurd ⟨es, hchain⟩ hne

/-- Witness for C1 on a concrete two-node graph with one bidirectional edge. -/
theorem c1_dijkstra_optimal_witness :
    (∀ r, findShortestPath
          (Graph.mk [("a", ⟨"a", 0, 0, "A", .city⟩), ("b", ⟨"b", 1, 1, "B", .city⟩)]
            [("a", [⟨"a", "b", 7, 5, 3, .expressway, 2, 1⟩]),
              ("b", [⟨"b", "a", 7, 5, 3, .expressway, 2, 1⟩])])
          "a" "b" Mode.distance = some r →
      ∃ es, EdgeChain
          (Graph.mk [("a", ⟨"a", 0, 0, "A", .city⟩), ("b", ⟨"b", 1, 1, "B", .city⟩)]
            [("a", [⟨"a", "b", 7, 5, 3, .expressway, 2, 1⟩]),
              ("b", [⟨"b", "a", 7, 5, 3, .expressway, 2, 1⟩])]) "a" es "b" ∧
        r.path = chainNodes "a" es ∧
        ∀ es', EdgeChain
            (Graph.mk [("a", ⟨"a", 0, 0, "A", .city⟩), ("b", ⟨"b", 1, 1, "B", .city⟩)]
              [("a", [⟨"a", "b", 7, 5, 3, .expressway, 2, 1⟩]),
                ("b", [⟨"b", "a", 7, 5, 3, .expressway, 2, 1⟩])]) "a" es' "b" →
          chainWeight Mode.distance es ≤ chainWeight Mode.distance es') ∧
    ((¬∃ es, EdgeChain
          (Graph.mk [("a", ⟨"a", 0, 0, "A", .city⟩), ("b", ⟨"b", 1, 1, "B", .city⟩)]
            [("a", [⟨"a", "b", 7, 5, 3, .expressway, 2, 1⟩]),
              ("b", [⟨"b", "a", 7, 5, 3, .expressway, 2, 1⟩])]) "a" es "b") →
      findShortestPath
          (Graph.mk [("a", ⟨"a", 0, 0, "A", .city⟩), ("b", ⟨"b", 1, 1, "B", .city⟩)]
            [("a", [⟨"a", "b", 7, 5, 3, .expressway, 2, 1⟩]),
              ("b", [⟨"b", "a", 7, 5, 3, .expressway, 2, 1⟩])])
          "a" "b" Mode.distance = none) :=
  c1_dijkstra_optimal _ Mode.distance "a" "b" (by decide)
    (by with_unfolding_all decide) (by with_unfolding_all decide)
    (by decide) (by decide)

theorem findShortestPath_some_build {g : Graph} {mode : Mode} {s t : String}
    {r : RouteResult} (hr : findShortestPath g s t mode = some r) :
    r = buildRouteResult g r.path := by
  by_cases hst : hasNode g s ∧ hasNode g t
  · rw [findShortestPath_eq g s t mode hst] at hr
    by_cases hhead : (dijkstraPath g mode s t).head? = some s
    · rw [if_pos hhead] at hr
      have h1 : r = buildRouteResult g (dijkstraPath g mode s t) :=
        (Option.some.inj hr).symm
      rw [h1, buildRouteResult_path]
    · rw [if_neg hhead] at hr; cases hr
  · rw [findShortestPath_absent g s t mode hst] at hr; cases hr

theorem buildRouteResult_totalDistance (g : Graph) (p : List String) :
    (buildRouteResult g p).totalDistance =
      ((roundJS (sumBy g (fun e => e.distance) p) : ℤ) : ℚ) := by
  have h : (buildRouteResult g p).totalDistance =
      ((roundJS (routeTotals g p).1 : ℤ) : ℚ) := rfl
  rw [h, routeTotals_spec]

theorem buildRouteResult_totalTime (g : Graph) (p : List String) :
    (buildRouteResult g p).totalTime =
      ((roundJS (sumBy g (fun e => e.time * e.trafficFactor) p) : ℤ) : ℚ) := by
  have h : (buildRouteResult g p).totalTime =
      ((roundJS (routeTotals g p).2.1 : ℤ) : ℚ) := rfl
  rw [h, routeTotals_spec]

theorem buildRouteResult_totalCost (g : Graph) (p : List String) :
    (buildRouteResult g p).totalCost =
      ((roundJS (sumBy g (fun e => e.cost + e.tollCost) p) : ℤ) : ℚ) := by
  have h : (buildRouteResult g p).totalCost =
      ((roundJS (routeTotals g p).2.2 : ℤ) : ℚ) := rfl
  rw [h, routeTotals_spec]

/-- A two-node graph with one bidirectional edge whose effective time
`25 * 1.1 = 27.5` is fractional, exercising the rounding of totals. -/
def cexGraph : Graph :=
  ⟨[("a", ⟨"a", 0, 0, "A", .city⟩), ("b", ⟨"b", 1, 1, "B", .city⟩)],
    [("a", [⟨"a", "b", 25, 25, 30, .expressway, 65, 1.1⟩]),
      ("b", [⟨"b", "a", 25, 25, 30, .expressway, 65, 1.1⟩])]⟩

/-- Counterexample to C2 as stated: the reported `totalTime` of a successful
search is `28`, but the exact per-edge sum of `time * trafficFactor` along
the returned path is `27.5`; the reported totals are rounded, not exact. -/
theorem c2_totals_not_exact_counterexample :
    (findShortestPath cexGraph "a" "b" Mode.distance).map
        (fun r => (r.path, r.totalTime)) = some (["a", "b"], 28) ∧
    sumBy cexGraph (fun e => e.time * e.trafficFactor) ["a", "b"] = 27.5 ∧
    ¬((28 : ℚ) = 27.5) := by
  refine ⟨?_, ?_, ?_⟩ <;> with_unfolding_all decide

/-- C2 (amended): on success the path runs from `startId` to `endId`, every
consecutive pair is connected by a stored edge, and the three reported
totals are the per-edge sums under the three weight fields, each rounded to
an integer by `Math.round` (rounding is forced by the counterexample). -/
theorem c2_success_postcondition (g : Graph) (mode : Mode) (s t : String)
    (hnd : (nodeKeys g).Nodup) (r : RouteResult)
    (hr : findShortestPath g s t mode = some r) :
    r.path.head? = some s ∧ r.path.getLast? = some t ∧
    (∀ pr ∈ r.path.zip r.path.tail, ∃ e ∈ getEdges g pr.1, e.«to» = pr.2) ∧
    r.totalDistance = ((roundJS (sumBy g (fun e => e.distance) r.path) : ℤ) : ℚ) ∧
    r.totalTime = ((roundJS (sumBy g (fun e => e.time * e.trafficFactor) r.path) : ℤ) : ℚ) ∧
    r.totalCost = ((roundJS (sumBy g (fun e => e.cost + e.tollCost) r.path) : ℤ) : ℚ) := by
  obtain ⟨p, hrb, hrpath, hhead, hlast, _, es, hchain, hnodes, _⟩ :=
    findShortestPath_some_spec hnd hr
  refine ⟨by rw [hrpath]; exact hhead, by rw [hrpath]; exact hlast, ?_, ?_, ?_, ?_⟩
  · rw [hrpath, ← hnodes]
    exact chainNodes_zip_connected hchain
  · have h1 : r.totalDistance = (buildRouteResult g r.path).totalDistance := by
      conv_lhs => rw [findShortestPath_some_build hr]
    rw [h1, buildRouteResult_totalDistance]
  · have h1 : r.totalTime = (buildRouteResult g r.path).totalTime := by
      conv_lhs => rw [findShortestPath_some_build hr]
    rw [h1, buildRouteResult_totalTime]
  · have h1 : r.totalCost = (buildRouteResult g r.path).totalCost := by
      conv_lhs => rw [findShortestPath_some_build hr]
    rw [h1, buildRouteResult_totalCost]

/-- Witness for the amended C2 on the concrete two-node graph. -/
theorem c2_success_postcondition_witness :
    (buildRouteResult cexGraph ["a", "b"]).path.head? = some "a" ∧
    (buildRouteResult cexGraph ["a", "b"]).path.getLast? = some "b" ∧
    (∀ pr ∈ (buildRouteResult cexGraph ["a", "b"]).path.zip
        (buildRouteResult cexGraph ["a", "b"]).path.tail,
      ∃ e ∈ getEdges cexGraph pr.1, e.«to» = pr.2) ∧
    (buildRouteResult cexGraph ["a", "b"]).totalDistance =
      ((roundJS (sumBy cexGraph (fun e => e.distance)
        (buildRouteResult cexGraph ["a", "b"]).path) : ℤ) : ℚ) ∧
    (buildRouteResult cexGraph ["a", "b"]).totalTime =
      ((roundJS (sumBy cexGraph (fun e => e.time * e.trafficFactor)
        (buildRouteResult cexGraph ["a", "b"]).path) : ℤ) : ℚ) ∧
    (buildRouteResult cexGraph ["a", "b"]).totalCost =
      ((roundJS (sumBy cexGraph (fun e => e.cost + e.tollCost)
        (buildRouteResult cexGraph ["a", "b"]).path) : ℤ) : ℚ) :=
  c2_success_postcondition cexGraph Mode.distance "a" "b" (by decide) _
    (by with_unfolding_all decide)

/-- A second copy of the fractional-time graph, used by the C9 witness. -/
def fracGraph : Graph :=
  ⟨[("a", ⟨"a", 0, 0, "A", .city⟩), ("b", ⟨"b", 1, 1, "B", .city⟩)],
    [("a", [⟨"a", "b", 25, 25, 30, .expressway, 65, 1.1⟩]),
      ("b", [⟨"b", "a", 25, 25, 30, .expressway, 65, 1.1⟩])]⟩

/-- C9: every reported total of a successful search is an integer, namely
the exact per-edge sum rounded to the nearest integer (`Math.round`, which
agrees with mathematical rounding `round` on every rational). -/
theorem c9_totals_are_rounded_integers {g : Graph} {mode : Mode} {s t : String}
    {r : RouteResult} (hr : findShortestPath g s t mode = some r) :
    (∃ n : ℤ, r.totalDistance = (n : ℚ)) ∧ (∃ n : ℤ, r.totalTime = (n : ℚ)) ∧
    (∃ n : ℤ, r.totalCost = (n : ℚ)) ∧
    r.totalDistance = ((roundJS (sumBy g (fun e => e.distance) r.path) : ℤ) : ℚ) ∧
    r.totalTime = ((roundJS (sumBy g (fun e => e.time * e.trafficFactor) r.path) : ℤ) : ℚ) ∧
    r.totalCost = ((roundJS (sumBy g (fun e => e.cost + e.tollCost) r.path) : ℤ) : ℚ) ∧
    (∀ q : ℚ, roundJS q = round q) := by
  have hd : r.totalDistance = (buildRouteResult g r.path).totalDistance := by
    conv_lhs => rw [findShortestPath_some_build hr]
  have hti : r.totalTime = (buildRouteResult g r.path).totalTime := by
    conv_lhs => rw [findShortestPath_some_build hr]
  have hc : r.totalCost = (buildRouteResult g r.path).totalCost := by
    conv_lhs => rw [findShortestPath_some_build hr]
  rw [hd, hti, hc, buildRouteResult_totalDistance, buildRouteResult_totalTime,
    buildRouteResult_totalCost]
  refine ⟨⟨_, rfl⟩, ⟨_, rfl⟩, ⟨_, rfl⟩, rfl, rfl, rfl, roundJS_eq_round⟩

/-- Witness for C9 on a graph whose exact time sum `27.5` is fractional. -/
theorem c9_totals_are_rounded_integers_witness :
    (∃ n : ℤ, (buildRouteResult fracGraph ["a", "b"]).totalDistance = (n : ℚ)) ∧
    (∃ n : ℤ, (buildRouteResult fracGraph ["a", "b"]).totalTime = (n : ℚ)) ∧
    (∃ n : ℤ, (buildRouteResult fracGraph ["a", "b"]).totalCost = (n : ℚ)) ∧
    (buildRouteResult fracGraph ["a", "b"]).totalDistance =
      ((roundJS (sumBy fracGraph (fun e => e.distance)
        (buildRouteResult fracGraph ["a", "b"]).path) : ℤ) : ℚ) ∧
    (buildRouteResult fracGraph ["a", "b"]).totalTime =
      ((roundJS (sumBy fracGraph (fun e => e.time * e.trafficFactor)
        (buildRouteResult fracGraph ["a", "b"]).path) : ℤ) : ℚ) ∧
    (buildRouteResult fracGraph ["a", "b"]).totalCost =
      ((roundJS (sumBy fracGraph (fun e => e.cost + e.tollCost)
        (buildRouteResult fracGraph ["a", "b"]).path) : ℤ) : ℚ) ∧
    (∀ q : ℚ, roundJS q = round q) :=
  @c9_totals_are_rounded_integers fracGraph Mode.distance "a" "b" _
    (by with_unfolding_all decide)

theorem routesEqual_some_iff (a b : RouteResult) :
    routesEqual (some a) (some b) = true ↔ a.path = b.path := by
  unfold routesEqual
  exact beq_iff_eq

/-- Shape analysis of `findMultipleRoutes`, independent of graph invariants:
at most three results, pairwise distinct node sequences, the distance result
first, and emptiness exactly when all three searches fail. -/
theorem fmr_core (g : Graph) (s t : String) :
    (findMultipleRoutes g s t).length ≤ 3 ∧
    (findMultipleRoutes g s t).Pairwise (fun a b => a.path ≠ b.path) ∧
    (∀ r, findShortestPath g s t Mode.distance = some r →
      (findMultipleRoutes g s t).head? = some r) ∧
    ((findShortestPath g s t Mode.distance = none ∧
      findShortestPath g s t Mode.time = none ∧
      findShortestPath g s t Mode.cost = none) → findMultipleRoutes g s t = []) ∧
    (findMultipleRoutes g s t = [] → findShortestPath g s t Mode.distance = none) := by
  unfold findMultipleRoutes
  rcases h1 : findShortestPath g s t Mode.distance with _ | r1 <;>
    rcases h2 : findShortestPath g s t Mode.time with _ | r2 <;>
      rcases h3 : findShortestPath g s t Mode.cost with _ | r3 <;>
        simp only [h1, h2, h3, routesEqual] <;>
          (try split_ifs) <;>
            simp_all [List.pairwise_cons, routesEqual, beq_iff_eq]

/-- The surviving candidates appear in computation order: the list is the
concatenation of a distance segment, then a time segment, then a cost
segment, each either empty or the one result of that mode's search. -/
theorem fmr_order (g : Graph) (s t : String) :
    ∃ l1 l2 l3 : List RouteResult,
      findMultipleRoutes g s t = l1 ++ l2 ++ l3 ∧
      ((findShortestPath g s t Mode.distance = none ∧ l1 = []) ∨
        ∃ r1, findShortestPath g s t Mode.distance = some r1 ∧ l1 = [r1]) ∧
      (l2 = [] ∨ ∃ r2, findShortestPath g s t Mode.time = some r2 ∧ l2 = [r2]) ∧
      (l3 = [] ∨ ∃ r3, findShortestPath g s t Mode.cost = some r3 ∧ l3 = [r3]) := by
  unfold findMultipleRoutes
  rcases h1 : findShortestPath g s t Mode.distance with _ | r1 <;>
    rcases h2 : findShortestPath g s t Mode.time with _ | r2 <;>
      rcases h3 : findShortestPath g s t Mode.cost with _ | r3 <;>
        simp only [h1, h2, h3, routesEqual] <;>
          (try split_ifs) <;>
            first
              | exact ⟨[], [], [], rfl, Or.inl ⟨True.intro, rfl⟩, Or.inl rfl, Or.inl rfl⟩
              | exact ⟨[], [], [r3], rfl, Or.inl ⟨True.intro, rfl⟩, Or.inl rfl,
                  Or.inr ⟨r3, rfl, rfl⟩⟩
              | exact ⟨[], [r2], [], rfl, Or.inl ⟨True.intro, rfl⟩,
                  Or.inr ⟨r2, rfl, rfl⟩, Or.inl rfl⟩
              | exact ⟨[], [r2], [r3], rfl, Or.inl ⟨True.intro, rfl⟩,
                  Or.inr ⟨r2, rfl, rfl⟩, Or.inr ⟨r3, rfl, rfl⟩⟩
              | exact ⟨[r1], [], [], rfl, Or.inr ⟨r1, rfl, rfl⟩, Or.inl rfl, Or.inl rfl⟩
              | exact ⟨[r1], [], [r3], rfl, Or.inr ⟨r1, rfl, rfl⟩, Or.inl rfl,
                  Or.inr ⟨r3, rfl, rfl⟩⟩
              | exact ⟨[r1], [r2], [], rfl, Or.inr ⟨r1, rfl, rfl⟩,
                  Or.inr ⟨r2, rfl, rfl⟩, Or.inl rfl⟩
              | exact ⟨[r1], [r2], [r3], rfl, Or.inr ⟨r1, rfl, rfl⟩,
                  Or.inr ⟨r2, rfl, rfl⟩, Or.inr ⟨r3, rfl, rfl⟩⟩

/-- C3: `findMultipleRoutes` returns at most 3 routes, no two of which share
the same node sequence (order-sensitive elementwise equality of the path
arrays); the surviving candidates appear in computation order — the list is
a distance segment, then a time segment, then a cost segment, each empty or
that mode's result, so the distance-optimal route is first whenever it
exists and a kept time-mode route precedes a kept cost-mode route; at
least one route is returned whenever both ids are present and some path
connects them; and no route is returned when no path connects them or when
either id is absent from the node set. -/
theorem c3_multiple_routes (g : Graph) (s t : String)
    (hnd : (nodeKeys g).Nodup) (hWF : WellFormed g)
    (hNN : NonnegWeights g Mode.distance) :
    (findMultipleRoutes g s t).length ≤ 3 ∧
    (findMultipleRoutes g s t).Pairwise (fun a b => a.path ≠ b.path) ∧
    (∀ r, findShortestPath g s t Mode.distance = some r →
      (findMultipleRoutes g s t).head? = some r) ∧
    (∃ l1 l2 l3 : List RouteResult,
      findMultipleRoutes g s t = l1 ++ l2 ++ l3 ∧
      ((findShortestPath g s t Mode.distance = none ∧ l1 = []) ∨
        ∃ r1, findShortestPath g s t Mode.distance = some r1 ∧ l1 = [r1]) ∧
      (l2 = [] ∨ ∃ r2, findShortestPath g s t Mode.time = some r2 ∧ l2 = [r2]) ∧
      (l3 = [] ∨ ∃ r3, findShortestPath g s t Mode.cost = some r3 ∧ l3 = [r3])) ∧
    (s ∈ nodeKeys g → t ∈ nodeKeys g → (∃ es, EdgeChain g s es t) →
      1 ≤ (findMultipleRoutes g s t).length) ∧
    ((¬ ∃ es, EdgeChain g s es t) → findMultipleRoutes g s t = []) ∧
    (¬(hasNode g s ∧ hasNode g t) → findMultipleRoutes g s t = []) := by
  obtain ⟨hlen, hpw, hhead, hempty, _⟩ := fmr_core g s t
  refine ⟨hlen, hpw, hhead, fmr_order g s t, ?_, ?_, ?_⟩
  · rintro hs ht ⟨es, hch⟩
    obtain ⟨r, hr⟩ := findShortestPath_complete g Mode.distance s t hnd hWF hNN hs ht hch
    have hh := hhead r hr
    cases hfm : findMultipleRoutes g s t with
    | nil => rw [hfm] at hh; cases hh
    | cons a l => simp
  · intro hnc
    apply hempty
    have hnone : ∀ m : Mode, findShortestPath g s t m = none := by
      intro m
      rcases h : findShortestPath g s t m with _ | r
      · rfl
      · obtain ⟨p, -, -, -, -, -, es, hch, -, -⟩ := findShortestPath_some_spec hnd h
        exact absurd ⟨es, hch⟩ hnc
    exact ⟨hnone _, hnone _, hnone _⟩
  · intro habs
    exact hempty ⟨findShortestPath_absent g s t _ habs,
      findShortestPath_absent g s t _ habs, findShortestPath_absent g s t _ habs⟩

theorem c3_multiple_routes_witness :
    (findMultipleRoutes cexGraph "a" "b").length ≤ 3 ∧
    (findMultipleRoutes cexGraph "a" "b").Pairwise (fun a b => a.path ≠ b.path) ∧
    (∀ r, findShortestPath cexGraph "a" "b" Mode.distance = some r →
      (findMultipleRoutes cexGraph "a" "b").head? = some r) ∧
    (∃ l1 l2 l3 : List RouteResult,
      findMultipleRoutes cexGraph "a" "b" = l1 ++ l2 ++ l3 ∧
      ((findShortestPath cexGraph "a" "b" Mode.distance = none ∧ l1 = []) ∨
        ∃ r1, findShortestPath cexGraph "a" "b" Mode.distance = some r1 ∧ l1 = [r1]) ∧
      (l2 = [] ∨
        ∃ r2, findShortestPath cexGraph "a" "b" Mode.time = some r2 ∧ l2 = [r2]) ∧
      (l3 = [] ∨
        ∃ r3, findShortestPath cexGraph "a" "b" Mode.cost = some r3 ∧ l3 = [r3])) ∧
    ("a" ∈ nodeKeys cexGraph → "b" ∈ nodeKeys cexGraph →
      (∃ es, EdgeChain cexGraph "a" es "b") →
      1 ≤ (findMultipleRoutes cexGraph "a" "b").length) ∧
    ((¬ ∃ es, EdgeChain cexGraph "a" es "b") →
      findMultipleRoutes cexGraph "a" "b" = []) ∧
    (¬(hasNode cexGraph "a" ∧ hasNode cexGraph "b") →
      findMultipleRoutes cexGraph "a" "b" = []) :=
  c3_multiple_routes cexGraph "a" "b" (by with_unfolding_all decide)
    (by with_unfolding_all decide) (by with_unfolding_all decide)

/-- A graph holding one malformed edge: `"a" → "ghost"` where `"ghost"` is
not a key of the node set. -/
def badGraph : Graph :=
  ⟨[("a", ⟨"a", 0, 0, "A", .city⟩), ("b", ⟨"b", 1, 1, "B", .city⟩)],
    [("a", [⟨"a", "b", 5, 5, 5, .expressway, 0, 1⟩,
            ⟨"a", "ghost", 1, 1, 1, .expressway, 0, 1⟩]),
      ("b", [⟨"b", "a", 5, 5, 5, .expressway, 0, 1⟩])]⟩

def ghostEdge : GraphEdge := ⟨"a", "ghost", 1, 1, 1, .expressway, 0, 1⟩

/-- C8: an edge whose `to` id is not a key of the node set is a dead end:
relaxing it leaves the tentative distances and predecessors unchanged
(because `distances.get(edge.to)` is `undefined` and the JS comparison
`newDistance < undefined` is false), and the nonexistent target id never
appears in any returned path.  (`findShortestPath` is a total Lean
function, so no error can be raised.) -/
theorem c8_malformed_edge_dead_end (g : Graph) (mode : Mode)
    (hnd : (nodeKeys g).Nodup) (e : GraphEdge) (hbad : e.«to» ∉ nodeKeys g) :
    (∀ (vis : List String) (u : String)
        (dp : (String → Option (WithTop ℚ)) × (String → Option (Option String))),
      (∀ y, (dp.1 y).isSome → y ∈ nodeKeys g) →
      relaxStep mode vis u dp e = dp) ∧
    (∀ s t r, findShortestPath g s t mode = some r → e.«to» ∉ r.path) := by
  constructor
  · intro vis u dp hdom
    have hnone : dp.1 e.«to» = none := by
      rcases hx : dp.1 e.«to» with _ | v
      · rfl
      · exact absurd (hdom e.«to» (by rw [hx]; rfl)) hbad
    unfold relaxStep
    by_cases hv : e.«to» ∈ vis
    · rw [if_pos hv]
    · rw [if_neg hv]
      rcases hu : dp.1 u with _ | du <;> simp only [hu, hnone]
  · intro s t r hr hx
    obtain ⟨p, -, hpath, -, -, hmem, -, -, -, -⟩ := findShortestPath_some_spec hnd hr
    rw [hpath] at hx
    exact hbad (hmem _ hx)

theorem c8_malformed_edge_dead_end_witness :
    (∀ (vis : List String) (u : String)
        (dp : (String → Option (WithTop ℚ)) × (String → Option (Option String))),
      (∀ y, (dp.1 y).isSome → y ∈ nodeKeys badGraph) →
      relaxStep Mode.distance vis u dp ghostEdge = dp) ∧
    (∀ s t r, findShortestPath badGraph s t Mode.distance = some r →
      ghostEdge.«to» ∉ r.path) :=
  c8_malformed_edge_dead_end badGraph Mode.distance (by with_unfolding_all decide)
    ghostEdge (by with_unfolding_all decide)

/-- A one-node graph and a dynamic node whose (abstracted) great-circle
distance to that node is 60 km. -/
def c4Graph : Graph := ⟨[("a", ⟨"a", 0, 0, "A", .city⟩)], [("a", [])]⟩

def c4Node : GraphNode := ⟨"b", 1, 1, "B", .city⟩

set_option maxRecDepth 4000 in
/-- C4: on inserting a node 60 km from one qualifying neighbour, the
synthesized edge pair carries `roadType = state_highway`, `tollCost = 0`,
`trafficFactor = 1`, `cost = distance * 8 = 480` as claimed, but its stored
time is `distance / 60 = 1`, whereas the claim prescribes
`distance / 60 * 60 = 60`: the code divides by 60 without converting back
to minutes. -/
theorem c4_dynamic_edge_time_bug :
    getEdges (addDynamicNode (fun _ _ => 60) c4Graph c4Node) "b" =
      [⟨"b", "a", 60, 1, 480, .state_highway, 0, 1⟩] ∧
    getEdges (addDynamicNode (fun _ _ => 60) c4Graph c4Node) "a" =
      [⟨"a", "b", 60, 1, 480, .state_highway, 0, 1⟩] ∧
    (60 : ℚ) / 60 * 60 = 60 ∧
    ((1 : ℚ) ≠ (60 : ℚ) / 60 * 60) := by
  refine ⟨?_, ?_, ?_, ?_⟩ <;> with_unfolding_all decide

/-! ## Edge symmetry (claim C7) -/

/-- Every stored edge has its exact reverse (same attributes, endpoints
swapped) stored under its target node. -/
def SymmetricG (g : Graph) : Prop :=
  ∀ (a : String), ∀ e ∈ getEdges g a, reverseEdge e ∈ getEdges g e.«to»

/-- A per-edge property checked over the (finitely many) adjacency entries
holds over every id: an id absent from the `edges` map has no edges. -/
theorem forall_edges_of_keys (g : Graph) (P : GraphEdge → Prop)
    (h : ∀ p ∈ g.edges, ∀ e ∈ getEdges g p.1, P e) :
    ∀ a, ∀ e ∈ getEdges g a, P e := by
  intro a e he
  rcases hm : mapGet g.edges a with _ | l
  · simp [getEdges, hm] at he
  · exact h (a, l) (mapGet_mem hm) e he

theorem symmetricG_of_keys (g : Graph)
    (h : ∀ p ∈ g.edges, ∀ e ∈ getEdges g p.1, reverseEdge e ∈ getEdges g e.«to») :
    SymmetricG g :=
  fun a => forall_edges_of_keys g (fun e => reverseEdge e ∈ getEdges g e.«to») h a

/-- `addEdge` appends to the `from` entry and leaves every other entry
unchanged. -/
theorem getEdges_addEdge (g : Graph) (e : GraphEdge) (a : String) :
    getEdges (addEdge g e) a =
      if a = e.«from» then getEdges g e.«from» ++ [e] else getEdges g a := by
  by_cases h : a = e.«from»
  · rw [if_pos h, h]
    show (mapGet (mapSet g.edges e.«from»
        ((mapGet g.edges e.«from»).getD [] ++ [e])) e.«from»).getD [] = _
    rw [mapGet_mapSet_self]
    rfl
  · rw [if_neg h]
    show (mapGet (mapSet g.edges e.«from» _) a).getD [] = _
    rw [mapGet_mapSet_ne _ _ _ _ h]
    rfl

theorem reverseEdge_reverseEdge (e : GraphEdge) : reverseEdge (reverseEdge e) = e := rfl

/-- Inserting an edge together with its reverse preserves symmetry. -/
theorem symmetric_pairIns (g : Graph) (e : GraphEdge) (hg : SymmetricG g) :
    SymmetricG (addEdge (addEdge g e) (reverseEdge e)) := by
  have hrev : ∀ a, getEdges (addEdge (addEdge g e) (reverseEdge e)) a =
      if a = e.«to» then getEdges (addEdge g e) e.«to» ++ [reverseEdge e]
      else getEdges (addEdge g e) a :=
    fun a => getEdges_addEdge (addEdge g e) (reverseEdge e) a
  have hone : ∀ a, getEdges (addEdge g e) a =
      if a = e.«from» then getEdges g e.«from» ++ [e] else getEdges g a :=
    fun a => getEdges_addEdge g e a
  have hmem2 : ∀ a x, x ∈ getEdges (addEdge (addEdge g e) (reverseEdge e)) a →
      x ∈ getEdges g a ∨ (a = e.«from» ∧ x = e) ∨ (a = e.«to» ∧ x = reverseEdge e) := by
    intro a x hx
    rw [hrev] at hx
    by_cases h2 : a = e.«to»
    · rw [if_pos h2] at hx
      rcases List.mem_append.mp hx with hx | hx
      · rw [hone] at hx
        by_cases h1 : e.«to» = e.«from»
        · rw [if_pos h1] at hx
          rcases List.mem_append.mp hx with hx | hx
          · left; rw [h2, h1]; exact hx
          · right; left; exact ⟨h2.trans h1, List.mem_singleton.mp hx⟩
        · rw [if_neg h1] at hx
          left; rw [h2]; exact hx
      · right; right; exact ⟨h2, List.mem_singleton.mp hx⟩
    · rw [if_neg h2, hone] at hx
      by_cases h1 : a = e.«from»
      · rw [if_pos h1] at hx
        rcases List.mem_append.mp hx with hx | hx
        · left; rw [h1]; exact hx
        · right; left; exact ⟨h1, List.mem_singleton.mp hx⟩
      · rw [if_neg h1] at hx
        left; exact hx
  have hsub : ∀ a x, x ∈ getEdges g a →
      x ∈ getEdges (addEdge (addEdge g e) (reverseEdge e)) a := by
    intro a x hx
    simp only [hrev, hone]
    by_cases h2 : a = e.«to»
    · rw [if_pos h2]
      apply List.mem_append_left
      by_cases h1 : e.«to» = e.«from»
      · rw [if_pos h1]
        apply List.mem_append_left
        rw [← h1, ← h2]; exact hx
      · rw [if_neg h1, ← h2]; exact hx
    · rw [if_neg h2]
      by_cases h1 : a = e.«from»
      · rw [if_pos h1]
        apply List.mem_append_left
        rw [← h1]; exact hx
      · rw [if_neg h1]; exact hx
  intro a x hx
  rcases hmem2 a x hx with hx | ⟨ha, hxe⟩ | ⟨ha, hxe⟩
  · exact hsub _ _ (hg a x hx)
  · subst hxe
    simp only [hrev, if_pos rfl]
    exact List.mem_append_right _ (List.mem_singleton.mpr rfl)
  · subst hxe
    show e ∈ getEdges (addEdge (addEdge g e) (reverseEdge e)) e.«from»
    simp only [hrev, hone]
    by_cases h2 : e.«from» = e.«to»
    · rw [if_pos h2]
      apply List.mem_append_left
      rw [if_pos h2.symm]
      exact List.mem_append_right _ (List.mem_singleton.mpr rfl)
    · rw [if_neg h2]
      simp only [if_true]
      exact List.mem_append_right _ (List.mem_singleton.mpr rfl)

theorem symmetric_foldl {α : Type} (f : α → GraphEdge) (l : List α) (g : Graph)
    (hg : SymmetricG g) :
    SymmetricG (l.foldl (fun g p => addEdge (addEdge g (f p)) (reverseEdge (f p))) g) := by
  induction l generalizing g with
  | nil => exact hg
  | cons p l ih => exact ih _ (symmetric_pairIns g (f p) hg)

/-- `connectToNearestNodes` inserts each synthesized edge bidirectionally
(the explicit reverse literal in the source is exactly `reverseEdge` of the
forward edge), hence preserves symmetry. -/
theorem symmetric_connectToNearestNodes (hav : GraphNode → GraphNode → ℚ)
    (g : Graph) (n : GraphNode) (hg : SymmetricG g) :
    SymmetricG (connectToNearestNodes hav g n) := by
  have h : connectToNearestNodes hav g n =
      (((nearbyCandidates hav g.nodes n).insertionSort (fun a b => a.2 ≤ b.2)).take 3).foldl
        (fun g p => addEdge (addEdge g (dynEdge n p)) (reverseEdge (dynEdge n p))) g := rfl
  rw [h]
  exact symmetric_foldl (dynEdge n) _ g hg

/-- Resetting the adjacency entry of an id no stored edge points to
preserves symmetry. -/
theorem symmetric_reset (g : Graph) (n : GraphNode) (hg : SymmetricG g)
    (hfresh : ∀ a, ∀ e ∈ getEdges g a, e.«to» ≠ n.id) :
    SymmetricG ⟨mapSet g.nodes n.id n, mapSet g.edges n.id []⟩ := by
  have hget : ∀ b, getEdges ⟨mapSet g.nodes n.id n, mapSet g.edges n.id []⟩ b =
      if b = n.id then [] else getEdges g b := by
    intro b
    by_cases hb : b = n.id
    · rw [hb, if_pos rfl]
      show (mapGet (mapSet g.edges n.id []) n.id).getD [] = _
      rw [mapGet_mapSet_self]
      rfl
    · show (mapGet (mapSet g.edges n.id []) b).getD [] = _
      rw [mapGet_mapSet_ne _ _ _ _ hb, if_neg hb]
      rfl
  intro a e he
  rw [hget] at he
  by_cases ha : a = n.id
  · rw [if_pos ha] at he; cases he
  · rw [if_neg ha] at he
    rw [hget, if_neg (hfresh a e he)]
    exact hg a e he

set_option maxRecDepth 10000 in
/-- C7: after seed-network construction every stored edge has its reverse
(identical `distance`, `time`, `cost`, `roadType`, `tollCost`,
`trafficFactor`) stored under its target; and dynamic node insertion
preserves this symmetry for a node no stored edge points to, because each
synthesized edge is inserted in both directions. -/
theorem c7_edge_symmetry :
    SymmetricG dijkstraRouter ∧
    ∀ (hav : GraphNode → GraphNode → ℚ) (g : Graph) (n : GraphNode),
      SymmetricG g → (∀ a, ∀ e ∈ getEdges g a, e.«to» ≠ n.id) →
      SymmetricG (addDynamicNode hav g n) := by
  constructor
  · exact symmetricG_of_keys dijkstraRouter (by with_unfolding_all decide)
  · intro hav g n hg hfresh
    exact symmetric_connectToNearestNodes hav _ n (symmetric_reset g n hg hfresh)

theorem c7_edge_symmetry_witness :
    SymmetricG dijkstraRouter ∧
    SymmetricG (addDynamicNode (fun _ _ => 50) cexGraph ⟨"z", 5, 5, "Z", .city⟩) :=
  ⟨c7_edge_symmetry.1,
    c7_edge_symmetry.2 (fun _ _ => 50) cexGraph ⟨"z", 5, 5, "Z", .city⟩
      (symmetricG_of_keys cexGraph (by with_unfolding_all decide))
      (forall_edges_of_keys cexGraph (fun e => e.«to» ≠ "z")
        (by with_unfolding_all decide))⟩

/-! ## Re-insertion of an existing node id (claim C10) -/

/-- Every stored node value carries the key it is stored under (true of the
seed data and preserved by `addDynamicNode`, which stores `node` under
`node.id`). -/
def NodesConsistent (g : Graph) : Prop := ∀ p ∈ g.nodes, p.2.id = p.1

instance (g : Graph) : Decidable (NodesConsistent g) := by
  unfold NodesConsistent; infer_instance

/-- The outgoing edges `connectToNearestNodes` synthesizes for `n` after the
node map has been updated: the at-most-three nearest candidates within
100 km, in ascending distance order. -/
def synthesizedEdges (hav : GraphNode → GraphNode → ℚ) (g : Graph)
    (n : GraphNode) : List GraphEdge :=
  (((nearbyCandidates hav (mapSet g.nodes n.id n) n).insertionSort
      (fun a b => a.2 ≤ b.2)).take 3).map (dynEdge n)

theorem mapSet_forall {α : Type} (P : String × α → Prop) (k : String) (v : α)
    (hkv : P (k, v)) :
    ∀ (m : List (String × α)), (∀ p ∈ m, P p) → ∀ p ∈ mapSet m k v, P p := by
  intro m
  induction m with
  | nil =>
      intro _ p hp
      rw [List.mem_singleton.mp hp]
      exact hkv
  | cons q rest ih =>
      obtain ⟨k0, v0⟩ := q
      intro hm p hp
      by_cases h : k0 = k
      · simp only [mapSet] at hp
        rw [if_pos h] at hp
        rcases List.mem_cons.mp hp with hp | hp
        · rw [hp]; exact hkv
        · exact hm p (List.mem_cons_of_mem _ hp)
      · simp only [mapSet] at hp
        rw [if_neg h] at hp
        rcases List.mem_cons.mp hp with hp | hp
        · rw [hp]; exact hm _ (List.mem_cons_self _ _)
        · exact ih (fun p hp => hm p (List.mem_cons_of_mem _ hp)) p hp

/-- Candidates produced by `nearbyCandidates` never carry the new node's
own id (the filter discards the new node's key, and stored values carry
their keys). -/
theorem nearbyCandidates_id_ne (hav : GraphNode → GraphNode → ℚ)
    (nodes : List (String × GraphNode)) (n : GraphNode)
    (hNC : ∀ p ∈ nodes, p.2.id = p.1) :
    ∀ q ∈ nearbyCandidates hav nodes n, q.1.id ≠ n.id := by
  intro q hq
  simp only [nearbyCandidates, List.mem_filterMap] at hq
  obtain ⟨p, hp, hsome⟩ := hq
  by_cases h1 : p.1 = n.id
  · rw [if_pos h1] at hsome; cases hsome
  · rw [if_neg h1] at hsome
    by_cases h2 : hav n p.2 < 100
    · rw [if_pos h2] at hsome
      have hq1 : q.1 = p.2 := by
        have h := Option.some.inj hsome
        rw [← h]
      rw [hq1, hNC p hp]
      exact h1
    · rw [if_neg h2] at hsome; cases hsome

theorem foldl_pairIns_nodes {α : Type} (f : α → GraphEdge) (l : List α) (g : Graph) :
    (l.foldl (fun g p => addEdge (addEdge g (f p)) (reverseEdge (f p))) g).nodes =
      g.nodes := by
  induction l generalizing g with
  | nil => rfl
  | cons p l ih => exact ih _

theorem connectToNearestNodes_nodes (hav : GraphNode → GraphNode → ℚ) (g : Graph)
    (n : GraphNode) : (connectToNearestNodes hav g n).nodes = g.nodes := by
  have h : connectToNearestNodes hav g n =
      (((nearbyCandidates hav g.nodes n).insertionSort (fun a b => a.2 ≤ b.2)).take 3).foldl
        (fun g p => addEdge (addEdge g (dynEdge n p)) (reverseEdge (dynEdge n p))) g := rfl
  rw [h]
  exact foldl_pairIns_nodes (dynEdge n) _ g

/-- Folding bidirectional insertions of edges rooted at `nid` whose targets
all differ from `nid` appends exactly the forward edges to the `nid`
entry. -/
theorem foldl_pairIns_getEdges_self {α : Type} (f : α → GraphEdge) (nid : String)
    (hfrom : ∀ p, (f p).«from» = nid) :
    ∀ (l : List α), (∀ p ∈ l, (f p).«to» ≠ nid) → ∀ (g : Graph),
      getEdges (l.foldl (fun g p => addEdge (addEdge g (f p)) (reverseEdge (f p))) g) nid =
        getEdges g nid ++ l.map f := by
  intro l
  induction l with
  | nil => intro _ g; simp
  | cons p l ih =>
      intro hto g
      rw [List.foldl_cons, ih (fun q hq => hto q (List.mem_cons_of_mem _ hq)) _]
      have hrf : (reverseEdge (f p)).«from» = (f p).«to» := rfl
      have h1 : getEdges (addEdge (addEdge g (f p)) (reverseEdge (f p))) nid =
          getEdges g nid ++ [f p] := by
        rw [getEdges_addEdge, hrf,
            if_neg (fun h => hto p (List.mem_cons_self _ _) h.symm),
            getEdges_addEdge, if_pos (hfrom p).symm, hfrom p]
      rw [h1, List.append_assoc]
      rfl

/-- Every adjacency entry only ever grows under the bidirectional-insertion
fold: existing edges are left in place. -/
theorem foldl_pairIns_getEdges_frame {α : Type} (f : α → GraphEdge) :
    ∀ (l : List α) (g : Graph) (a : String),
      List.Sublist (getEdges g a)
        (getEdges (l.foldl (fun g p => addEdge (addEdge g (f p)) (reverseEdge (f p))) g) a) := by
  intro l
  induction l with
  | nil => intro g a; exact List.Sublist.refl _
  | cons p l ih =>
      intro g a
      rw [List.foldl_cons]
      refine List.Sublist.trans ?_ (ih _ a)
      have hrf : (reverseEdge (f p)).«from» = (f p).«to» := rfl
      have e1 : List.Sublist (getEdges g a) (getEdges (addEdge g (f p)) a) := by
        rw [getEdges_addEdge]
        by_cases h1 : a = (f p).«from»
        · rw [if_pos h1, h1]
          exact List.sublist_append_left _ _
        · rw [if_neg h1]
      have e2 : List.Sublist (getEdges (addEdge g (f p)) a)
          (getEdges (addEdge (addEdge g (f p)) (reverseEdge (f p))) a) := by
        rw [getEdges_addEdge (addEdge g (f p)) (reverseEdge (f p)) a, hrf]
        by_cases h2 : a = (f p).«to»
        · rw [if_pos h2, h2]
          exact List.sublist_append_left _ _
        · rw [if_neg h2]
      exact e1.trans e2

/-- C10: re-inserting an id already present overwrites the stored node,
resets that id's outgoing adjacency to exactly the newly synthesized edges
(every previously stored outgoing edge is discarded), and leaves every
other id's stored edges in place (its entry only grows). -/
theorem c10_reinsert_overwrites (hav : GraphNode → GraphNode → ℚ) (g : Graph)
    (n : GraphNode) (hmem : n.id ∈ nodeKeys g) (hNC : NodesConsistent g) :
    getNode (addDynamicNode hav g n) n.id = some n ∧
    getEdges (addDynamicNode hav g n) n.id = synthesizedEdges hav g n ∧
    ∀ a, a ≠ n.id →
      List.Sublist (getEdges g a) (getEdges (addDynamicNode hav g n) a) := by
  refine ⟨?_, ?_, ?_⟩
  · show mapGet (addDynamicNode hav g n).nodes n.id = some n
    have h : (addDynamicNode hav g n).nodes = mapSet g.nodes n.id n := by
      show (connectToNearestNodes hav
        ⟨mapSet g.nodes n.id n, mapSet g.edges n.id []⟩ n).nodes = _
      rw [connectToNearestNodes_nodes]
    rw [h, mapGet_mapSet_self]
  · have hconn : addDynamicNode hav g n =
        (((nearbyCandidates hav (mapSet g.nodes n.id n) n).insertionSort
          (fun a b => a.2 ≤ b.2)).take 3).foldl
          (fun g p => addEdge (addEdge g (dynEdge n p)) (reverseEdge (dynEdge n p)))
          ⟨mapSet g.nodes n.id n, mapSet g.edges n.id []⟩ := rfl
    have hto : ∀ p ∈ (((nearbyCandidates hav (mapSet g.nodes n.id n) n).insertionSort
        (fun a b => a.2 ≤ b.2)).take 3), (dynEdge n p).«to» ≠ n.id := by
      intro p hp
      have hp' : p ∈ nearbyCandidates hav (mapSet g.nodes n.id n) n :=
        (List.perm_insertionSort _ _).mem_iff.mp (List.take_subset _ _ hp)
      exact nearbyCandidates_id_ne hav _ n
        (mapSet_forall (fun p : String × GraphNode => p.2.id = p.1) n.id n rfl
          g.nodes hNC) p hp'
    have hempty : getEdges ⟨mapSet g.nodes n.id n, mapSet g.edges n.id []⟩ n.id = [] := by
      show (mapGet (mapSet g.edges n.id []) n.id).getD [] = []
      rw [mapGet_mapSet_self]
      rfl
    rw [hconn, foldl_pairIns_getEdges_self (dynEdge n) n.id (fun p => rfl) _ hto, hempty]
    rfl
  · intro a ha
    have hpre : getEdges g a = getEdges ⟨mapSet g.nodes n.id n, mapSet g.edges n.id []⟩ a := by
      show _ = (mapGet (mapSet g.edges n.id []) a).getD []
      rw [mapGet_mapSet_ne _ _ _ _ ha]
      rfl
    have hconn : addDynamicNode hav g n =
        (((nearbyCandidates hav (mapSet g.nodes n.id n) n).insertionSort
          (fun a b => a.2 ≤ b.2)).take 3).foldl
          (fun g p => addEdge (addEdge g (dynEdge n p)) (reverseEdge (dynEdge n p)))
          ⟨mapSet g.nodes n.id n, mapSet g.edges n.id []⟩ := rfl
    rw [hpre, hconn]
    exact foldl_pairIns_getEdges_frame (dynEdge n) _ _ a

theorem c10_reinsert_overwrites_witness :
    getNode (addDynamicNode (fun _ _ => 50) cexGraph ⟨"a", 3, 3, "A2", .city⟩) "a" =
      some ⟨"a", 3, 3, "A2", .city⟩ ∧
    getEdges (addDynamicNode (fun _ _ => 50) cexGraph ⟨"a", 3, 3, "A2", .city⟩) "a" =
      synthesizedEdges (fun _ _ => 50) cexGraph ⟨"a", 3, 3, "A2", .city⟩ ∧
    ∀ a, a ≠ "a" →
      List.Sublist (getEdges cexGraph a)
        (getEdges (addDynamicNode (fun _ _ => 50) cexGraph ⟨"a", 3, 3, "A2", .city⟩) a) :=
  c10_reinsert_overwrites (fun _ _ => 50) cexGraph ⟨"a", 3, 3, "A2", .city⟩
    (by with_unfolding_all decide) (by with_unfolding_all decide)

end DevNullX
